import Mathlib

/-!
Shallow embedding of the stagent diff/patch core (src/types.rs, src/diff.rs,
src/staging.rs, src/app.rs, src/patch.rs, src/editor.rs, src/feedback.rs)
together with theorems settling the specification claims about it.

Strings are modelled as Lean `String`, with all operations implemented by
structural recursion over the underlying character list so that concrete
instances evaluate inside the kernel.  Rust `u32` values are modelled as
`Nat` (with the explicit `u32` bound where the source can fail on overflow)
and Rust `i32` offsets as `Int`.
-/

namespace Stagent

/-! ## String primitives (structural models of the Rust `str` operations used) -/

/-- Boolean list prefix test, model of Rust `str::starts_with`. -/
def isPfx : List Char → List Char → Bool
  | [], _ => true
  | _ :: _, [] => false
  | a :: as, b :: bs => a = b && isPfx as bs

/-- Model of Rust `s.starts_with(p)`. -/
def swStr (s p : String) : Bool := isPfx p.data s.data

/-- Index of the first occurrence of `needle` in a character list, model of
Rust `str::find` (character positions instead of byte positions). -/
def findSub (needle : List Char) : List Char → Option Nat
  | [] => if needle = [] then some 0 else none
  | c :: rest => if isPfx needle (c :: rest) then some 0 else (findSub needle (rest)).map (· + 1)

/-- Model of Rust `s.contains(pat)` / `str::find(pat).is_some()`. -/
def containsSub (s pat : String) : Bool := (findSub pat.data s.data).isSome

/-- Model of Rust `s.strip_prefix(p)`. -/
def stripPfxStr (p s : String) : Option String :=
  if swStr s p then some (String.mk (s.data.drop p.data.length)) else none

/-- Model of Rust `s.ends_with('\n')`. -/
def endsWithNl (s : String) : Bool := s.data.getLast? = some '\n'

/-- Splits a character list at newline characters (keeping empty pieces). -/
def splitNlGo : List Char → List Char → List (List Char)
  | [], cur => [cur.reverse]
  | c :: rest, cur => if c = '\n' then cur.reverse :: splitNlGo rest [] else splitNlGo rest (c :: cur)

/-- Model of Rust `str::lines()`: split at newlines, drop a final empty piece
produced by a trailing newline, and strip one trailing carriage return from
each line. -/
def rustLines (s : String) : List String :=
  if s.data = [] then []
  else
    let parts := splitNlGo s.data []
    let parts := if s.data.getLast? = some '\n' then parts.dropLast else parts
    (parts.map (fun l => if l.getLast? = some '\r' then l.dropLast else l)).map String.mk

/-- Model of Rust `s.trim_end_matches('\n')`. -/
def dropTrailingNl (s : String) : String :=
  String.mk (s.data.reverse.dropWhile (· = '\n')).reverse

/-- Model of Rust `s.trim_end()`. -/
def trimRightStr (s : String) : String :=
  String.mk (s.data.reverse.dropWhile Char.isWhitespace).reverse

/-- Model of Rust `s.trim()`. -/
def trimStr (s : String) : String :=
  String.mk ((s.data.dropWhile Char.isWhitespace).reverse.dropWhile Char.isWhitespace).reverse

/-- Helper for `splitWsStr`: accumulates the current word in reverse. -/
def splitWsGo : List Char → List Char → List (List Char)
  | [], cur => if cur = [] then [] else [cur.reverse]
  | c :: rest, cur =>
    if c.isWhitespace then
      if cur = [] then splitWsGo rest [] else cur.reverse :: splitWsGo rest []
    else splitWsGo rest (c :: cur)

/-- Model of Rust `str::split_whitespace().collect()`. -/
def splitWsStr (s : String) : List String := (splitWsGo s.data []).map String.mk

/-- Model of Rust `s.split_once(c)`. -/
def splitOnceCh (s : String) (c : Char) : Option (String × String) :=
  (findSub [c] s.data).map fun i =>
    (String.mk (s.data.take i), String.mk (s.data.drop (i + 1)))

/-- Model of `Vec::join(sep)`. -/
def strJoin (sep : String) : List String → String
  | [] => ""
  | [x] => x
  | x :: y :: xs => x ++ sep ++ strJoin sep (y :: xs)

/-- Decimal digit accumulator used by `parseU32`. -/
def parseDigitsGo : List Char → Nat → Except String Nat
  | [], acc => .ok acc
  | c :: rest, acc =>
    if c.isDigit then parseDigitsGo rest (acc * 10 + (c.toNat - '0'.toNat))
    else .error "invalid digit found in string"

/-- Model of Rust `str::parse::<u32>()` (optional leading `+`, decimal digits,
`u32` range check), with the `ParseIntError` display strings. -/
def parseU32 (s : String) : Except String Nat :=
  match s.data with
  | [] => .error "cannot parse integer from empty string"
  | c :: rest =>
    let ds := if c = '+' then rest else c :: rest
    if ds = [] then .error "invalid digit found in string"
    else
      match parseDigitsGo ds 0 with
      | .error e => .error e
      | .ok n => if n ≤ 4294967295 then .ok n else .error "number too large to fit in target type"

/-! ## Data model (src/types.rs) -/

/-- The type of a diff line (`types.rs::LineKind`). -/
inductive LineKind where
  | Context
  | Added
  | Removed
deriving DecidableEq, Repr

/-- Review status for a hunk (`types.rs::HunkStatus`). -/
inductive HunkStatus where
  | Pending
  | Staged
  | Skipped
  | Edited
  | Commented
deriving DecidableEq, Repr

/-- Change kind of a file (`types.rs::DeltaStatus`). -/
inductive DeltaStatus where
  | Modified
  | Added
  | Deleted
  | Renamed
  | Untracked
deriving DecidableEq, Repr

/-- A single line within a diff hunk (`types.rs::DiffLine`). -/
structure DiffLine where
  kind : LineKind
  content : String
  old_lineno : Option Nat
  new_lineno : Option Nat
deriving DecidableEq, Repr

/-- A single diff hunk (`types.rs::Hunk`). -/
structure Hunk where
  header : String
  lines : List DiffLine
  status : HunkStatus
  old_start : Nat
  old_lines : Nat
  new_start : Nat
  new_lines : Nat
deriving DecidableEq, Repr

/-- A file with unstaged changes (`types.rs::FileDiff`). -/
structure FileDiff where
  path : String
  hunks : List Hunk
  status : DeltaStatus
  is_binary : Bool
deriving DecidableEq, Repr

/-- The kind of collected feedback (`types.rs::FeedbackKind`). -/
inductive FeedbackKind where
  | Edit
  | Comment
deriving DecidableEq, Repr

/-- Feedback collected from user edits or comments (`types.rs::HunkFeedback`). -/
structure HunkFeedback where
  file_path : String
  hunk_header : String
  kind : FeedbackKind
  content : String
  context_lines : List DiffLine
  comment_positions : List (Nat × String)
deriving DecidableEq, Repr

/-! ## Hunk splitter (src/diff.rs::split_hunk) -/

/-- Region finder loop of `split_hunk`: walks the lines with the current index
and, while inside a region, the index where it started. -/
def findRegionsGo : List DiffLine → Nat → Option Nat → List (Nat × Nat)
  | [], _, none => []
  | [], i, some rs => [(rs, i - 1)]
  | l :: rest, i, none =>
    match l.kind with
    | .Context => findRegionsGo rest (i + 1) none
    | _ => findRegionsGo rest (i + 1) (some i)
  | l :: rest, i, some rs =>
    match l.kind with
    | .Context => (rs, i - 1) :: findRegionsGo rest (i + 1) none
    | _ => findRegionsGo rest (i + 1) (some rs)

/-- Maximal contiguous runs of non-Context lines, as inclusive index pairs. -/
def findRegions (lines : List DiffLine) : List (Nat × Nat) := findRegionsGo lines 0 none

/-- The fixed context window used by `split_hunk` (`context_lines = 3`). -/
def contextWindow : Nat := 3

/-- The clamped slice bounds (inclusive) of the sub-hunk for region `ri`,
mirroring the `clamped_before` / `clamped_after` computation of `split_hunk`.
Natural subtraction models Rust `saturating_sub`. -/
def subBounds (len : Nat) (regions : List (Nat × Nat)) (ri : Nat) : Nat × Nat :=
  let r := regions.getD ri (0, 0)
  let ctxBefore := r.1 - contextWindow
  let ctxAfter := min (r.2 + contextWindow) (len - 1)
  let clampedBefore :=
    if 0 < ri then
      let prevEnd := (regions.getD (ri - 1) (0, 0)).2
      let prevAfter := min (prevEnd + contextWindow) (len - 1)
      min (max ctxBefore (prevAfter + 1)) r.1
    else ctxBefore
  let clampedAfter :=
    if ri + 1 < regions.length then
      let nextStart := (regions.getD (ri + 1) (0, 0)).1
      let nextBefore := nextStart - contextWindow
      max (min ctxAfter (nextBefore - 1)) r.2
    else ctxAfter
  (clampedBefore, clampedAfter)

/-- The inclusive slice `lines[b..=a]`. -/
def sliceLines (lines : List DiffLine) (b a : Nat) : List DiffLine :=
  (lines.drop b).take (a + 1 - b)

/-- Count of Context and Removed lines (the old-side tally of `split_hunk`). -/
def countOldLines (lines : List DiffLine) : Nat :=
  lines.countP (fun l => l.kind = LineKind.Context ∨ l.kind = LineKind.Removed)

/-- Count of Context and Added lines (the new-side tally of `split_hunk`). -/
def countNewLines (lines : List DiffLine) : Nat :=
  lines.countP (fun l => l.kind = LineKind.Context ∨ l.kind = LineKind.Added)

/-- Builds the sub-hunk for region `ri` of `split_hunk`. -/
def mkSubHunk (hunk : Hunk) (regions : List (Nat × Nat)) (ri : Nat) : Hunk :=
  let b := (subBounds hunk.lines.length regions ri).1
  let a := (subBounds hunk.lines.length regions ri).2
  let lines := sliceLines hunk.lines b a
  let oldCount := countOldLines lines
  let newCount := countNewLines lines
  let oStart := (lines.findSome? (fun l => l.old_lineno)).getD hunk.old_start
  let nStart := (lines.findSome? (fun l => l.new_lineno)).getD hunk.new_start
  { header := s!"@@ -{oStart},{oldCount} +{nStart},{newCount} @@ split {ri + 1}/{regions.length}"
    lines := lines
    status := .Pending
    old_start := oStart
    old_lines := oldCount
    new_start := nStart
    new_lines := newCount }

/-- Model of `diff.rs::split_hunk`. -/
def splitHunk (hunk : Hunk) : List Hunk :=
  let regions := findRegions hunk.lines
  if regions.length ≤ 1 then [hunk]
  else (List.range regions.length).map (fun ri => mkSubHunk hunk regions ri)

/-! ## Staging engine (src/staging.rs::reconstruct_blob, src/app.rs::compute_line_offset) -/

/-- Two's-complement reduction into the `i32` range `[-2^31, 2^31)`: the
value produced by Rust's `u32 as i32` cast and by wrapping `i32`
arithmetic. -/
def wrapI32 (n : Int) : Int := (n + 2147483648) % 4294967296 - 2147483648

/-- The hunk-line emission loop of `reconstruct_blob`: Context and Added line
content with trailing newlines trimmed, Removed lines skipped. -/
def emitHunkLines : List DiffLine → List String
  | [] => []
  | l :: ls =>
    match l.kind with
    | .Removed => emitHunkLines ls
    | _ => dropTrailingNl l.content :: emitHunkLines ls

/-- Model of `staging.rs::reconstruct_blob` (the Rust function always returns
`Ok`, so the embedding is total).  `hunk.old_start as i32` is the wrapping
`u32 → i32` cast, and the `i32` addition with `line_offset` wraps (the
release-mode semantics); after `.max(0)` the value is a valid `usize`. -/
def reconstruct_blob (original : String) (hunk : Hunk) (line_offset : Int) : String :=
  let origLines := if original = "" then [] else rustLines original
  let adjustedStart : Nat :=
    (max (wrapI32 (wrapI32 (hunk.old_start : Int) + line_offset)) 0).toNat
  let hunkStartIdx := if adjustedStart = 0 then 0 else adjustedStart - 1
  let result :=
    origLines.take hunkStartIdx ++ emitHunkLines hunk.lines
      ++ origLines.drop (hunkStartIdx + hunk.old_lines)
  let output := strJoin "\n" result
  if endsWithNl original || original = "" then output ++ "\n" else output

/-- Follows the specification's description of `apply` (spec §4.3): adjusted
0-based start index `max(0, old_start + offset − 1)`, original lines before it,
the hunk's Context and Added content, original lines from
`adjusted_start + old_lines` onward, joined with newlines, with a trailing
newline iff the original was empty or newline-terminated.  Used as the
comparison point for the refinement claim about `reconstruct_blob`. -/
def reconstructSpec (original : String) (hunk : Hunk) (offset : Int) : String :=
  let origLines := rustLines original
  let start : Nat := (max 0 ((hunk.old_start : Int) + offset - 1)).toNat
  let kept := hunk.lines.filterMap
    (fun l => if l.kind = LineKind.Removed then none else some (dropTrailingNl l.content))
  let joined := strJoin "\n" (origLines.take start ++ kept ++ origLines.drop (start + hunk.old_lines))
  if original = "" || endsWithNl original then joined ++ "\n" else joined

/-- The loop of `app.rs::compute_line_offset`: walks the hunks with their
index, stopping at the target index, accumulating
`h.new_lines as i32 - h.old_lines as i32` into the `i32` accumulator for
Staged hunks.  The `u32 → i32` casts wrap, and so do the `i32` subtraction
and the `+=` accumulation (the release-mode semantics). -/
def offsetGo : List Hunk → Nat → Nat → Int → Int
  | [], _, _, acc => acc
  | h :: rest, idx, hunkIdx, acc =>
    if idx = hunkIdx then acc
    else
      offsetGo rest (idx + 1) hunkIdx
        (if h.status = HunkStatus.Staged then
          wrapI32 (acc + wrapI32 (wrapI32 (h.new_lines : Int) - wrapI32 (h.old_lines : Int)))
        else acc)

/-- Model of `app.rs::compute_line_offset`. -/
def compute_line_offset (files : List FileDiff) (file_idx hunk_idx : Nat) : Int :=
  match files.get? file_idx with
  | none => 0
  | some f => offsetGo f.hunks 0 hunk_idx 0

/-- Follows the specification's description of offset computation (spec §4.3):
the sum of `new_lines − old_lines` over the Staged hunks before the target
index in the same file. -/
def offsetSpec (files : List FileDiff) (file_idx hunk_idx : Nat) : Int :=
  match files.get? file_idx with
  | none => 0
  | some f =>
    (((f.hunks.take hunk_idx).filter (fun h => h.status = HunkStatus.Staged)).map
      (fun h => (h.new_lines : Int) - (h.old_lines : Int))).sum

/-- The exact (unwrapped) staged-offset sum over the first `j` hunks, the
quantity the specification describes. -/
def stagedSum (hunks : List Hunk) (j : Nat) : Int :=
  (((hunks.take j).filter (fun h => h.status = HunkStatus.Staged)).map
    (fun h => (h.new_lines : Int) - (h.old_lines : Int))).sum

/-- The hunk list of the file at `file_idx` (empty when the index is out of
range), used to state per-hunk bounds. -/
def hunksAt (files : List FileDiff) (file_idx : Nat) : List Hunk :=
  match files.get? file_idx with
  | none => []
  | some f => f.hunks

/-! ## Unified-diff text ingestion (src/patch.rs) -/

/-- Model of Rust `s.ends_with(p)`. -/
def ewStr (s p : String) : Bool := isPfx p.data.reverse s.data.reverse

/-- Model of `parts[i].strip_prefix(c).unwrap_or(parts[i])`. -/
def stripChOr (c : Char) (s : String) : String :=
  match s.data with
  | [] => s
  | c2 :: rest => if c2 = c then String.mk rest else s

/-- Model of `patch.rs::parse_range`: `"10,5"` or `"10"` (omitted count = 1). -/
def parse_range (range : String) : Except String (Nat × Nat) :=
  match splitOnceCh range ',' with
  | some (s1, s2) =>
    match parseU32 s1 with
    | .error e => .error e
    | .ok a =>
      match parseU32 s2 with
      | .error e => .error e
      | .ok b => .ok (a, b)
  | none =>
    match parseU32 range with
    | .error e => .error e
    | .ok a => .ok (a, 1)

/-- Model of `patch.rs::parse_hunk_header`: returns
`(old_start, old_lines, new_start, new_lines, full_header_string)`. -/
def parse_hunk_header (line : String) : Except String (Nat × Nat × Nat × Nat × String) :=
  let header := trimRightStr line
  match stripPfxStr "@@ " line with
  | none => .error s!"Invalid hunk header: {line}"
  | some after_at =>
    match findSub " @@".data after_at.data with
    | none => .error s!"Invalid hunk header: {line}"
    | some end_at =>
      let range_part := String.mk (after_at.data.take end_at)
      match splitWsStr range_part with
      | [p1, p2] =>
        match parse_range (stripChOr '-' p1) with
        | .error e => .error e
        | .ok os =>
          match parse_range (stripChOr '+' p2) with
          | .error e => .error e
          | .ok ns => .ok (os.1, os.2, ns.1, ns.2, header)
      | _ => .error s!"Invalid hunk header range: {range_part}"

/-- The body-line loop of `patch.rs::parse_hunk`: walks lines after the hunk
header, classifying by leading character, tracking both line counters, and
stopping at the next hunk or file boundary or at an unrecognized line.
Returns the parsed lines and the remaining (unconsumed) input lines. -/
def parseHunkBody : List String → Nat → Nat → (List DiffLine × List String)
  | [], _, _ => ([], [])
  | l :: rest, oldNo, newNo =>
    if swStr l "@@ " || swStr l "diff --git " then ([], l :: rest)
    else if swStr l "\\ " then parseHunkBody rest oldNo newNo
    else
      match stripPfxStr "+" l with
      | some content =>
        let r := parseHunkBody rest oldNo (newNo + 1)
        (⟨.Added, content ++ "\n", none, some newNo⟩ :: r.1, r.2)
      | none =>
        match stripPfxStr "-" l with
        | some content =>
          let r := parseHunkBody rest (oldNo + 1) newNo
          (⟨.Removed, content ++ "\n", some oldNo, none⟩ :: r.1, r.2)
        | none =>
          match stripPfxStr " " l with
          | some content =>
            let r := parseHunkBody rest (oldNo + 1) (newNo + 1)
            (⟨.Context, content ++ "\n", some oldNo, some newNo⟩ :: r.1, r.2)
          | none =>
            if l = "" then
              let r := parseHunkBody rest (oldNo + 1) (newNo + 1)
              (⟨.Context, "\n", some oldNo, some newNo⟩ :: r.1, r.2)
            else ([], l :: rest)

/-- Model of `patch.rs::parse_hunk`: parses the header line, then the body
lines.  Returns the hunk, the remaining input lines, and whether the
count-mismatch diagnostic was emitted.  The built hunk carries the header's
declared counts. -/
def parse_hunk (headerLine : String) (rest : List String) :
    Except String (Hunk × List String × Bool) :=
  match parse_hunk_header headerLine with
  | .error e => .error e
  | .ok (old_start, old_lines, new_start, new_lines, header) =>
    let body := parseHunkBody rest old_start new_start
    let warn : Bool :=
      decide (countOldLines body.1 ≠ old_lines ∨ countNewLines body.1 ≠ new_lines)
    .ok
      ({ header := header
         lines := body.1
         status := .Pending
         old_start := old_start
         old_lines := old_lines
         new_start := new_start
         new_lines := new_lines }, body.2, warn)

/-- The hunk loop of `patch.rs::parse_file_diff`: consumes lines of the
current file section, parsing every line that starts with `"@@ "` as a hunk,
skipping other lines, and stopping at the next `"diff --git "` boundary.
`fuel` bounds the iteration count; callers pass at least `lines.length + 1`,
which always suffices since every iteration consumes at least one line. -/
def parseHunksGo : Nat → List String → Except String (List Hunk × List String)
  | 0, ls => .ok ([], ls)
  | _ + 1, [] => .ok ([], [])
  | fuel + 1, l :: rest =>
    if swStr l "diff --git " then .ok ([], l :: rest)
    else if swStr l "@@ " then
      match parse_hunk l rest with
      | .error e => .error e
      | .ok (h, rem, _) =>
        match parseHunksGo fuel rem with
        | .error e => .error e
        | .ok (hs, rem2) => .ok (h :: hs, rem2)
    else parseHunksGo fuel rest

/-- Model of `patch.rs::strip_ab_prefix`. -/
def stripAB (path : String) : String :=
  match stripPfxStr "a/" path with
  | some r => r
  | none =>
    match stripPfxStr "b/" path with
    | some r => r
    | none => path

/-- Model of `patch.rs::parse_git_header_path`. -/
def parse_git_header_path (header : String) : String :=
  match findSub " b/".data header.data with
  | some pos => String.mk (header.data.drop (pos + 3))
  | none =>
    match (splitWsStr header).getLast? with
    | some s => stripAB s
    | none => header

/-- The extended-header loop of `patch.rs::parse_file_diff`: classifies the
change kind, detects binary markers, and resolves the path, stopping at the
first hunk header or file boundary. -/
def parseExtHeaders : List String → DeltaStatus → Bool → String →
    (DeltaStatus × Bool × String × List String)
  | [], st, bin, p => (st, bin, p, [])
  | l :: rest, st, bin, p =>
    if swStr l "diff --git " || swStr l "@@ " then (st, bin, p, l :: rest)
    else if swStr l "new file mode" then parseExtHeaders rest .Added bin p
    else if swStr l "deleted file mode" then parseExtHeaders rest .Deleted bin p
    else
      match stripPfxStr "rename to " l with
      | some r => parseExtHeaders rest .Renamed bin r
      | none =>
        if swStr l "Binary files " && ewStr l " differ" then parseExtHeaders rest st true p
        else
          match stripPfxStr "+++ " l with
          | some r =>
            let p2 := stripAB r
            if p2 ≠ "/dev/null" then parseExtHeaders rest st bin p2
            else parseExtHeaders rest st bin p
          | none =>
            match stripPfxStr "--- " l with
            | some r =>
              if r ≠ "/dev/null" ∧ st = DeltaStatus.Deleted then
                parseExtHeaders rest st bin (stripAB r)
              else parseExtHeaders rest st bin p
            | none => parseExtHeaders rest st bin p

/-- Model of `patch.rs::parse_file_diff`: extended headers, then hunks.
Returns the `FileDiff` and the remaining input lines. -/
def parse_file_diff (gitHeaderRest : String) (rest : List String) :
    Except String (FileDiff × List String) :=
  let path := parse_git_header_path gitHeaderRest
  let ext := parseExtHeaders rest .Modified false path
  match parseHunksGo (ext.2.2.2.length + 1) ext.2.2.2 with
  | .error e => .error e
  | .ok (hunks, rem) =>
    .ok
      ({ path := ext.2.2.1
         hunks := hunks
         status := ext.1
         is_binary := ext.2.1 }, rem)

/-- The top-level loop of `patch.rs::parse_unified_diff`: skips lines until a
`"diff --git "` marker, parses a file section there, and repeats.  `fuel`
bounds the iteration count; `lines.length + 1` always suffices. -/
def parseFilesGo : Nat → List String → Except String (List FileDiff)
  | 0, _ => .ok []
  | _ + 1, [] => .ok []
  | fuel + 1, l :: rest =>
    match stripPfxStr "diff --git " l with
    | some hdrRest =>
      match parse_file_diff hdrRest rest with
      | .error e => .error e
      | .ok (fd, rem) =>
        match parseFilesGo fuel rem with
        | .error e => .error e
        | .ok fds => .ok (fd :: fds)
    | none => parseFilesGo fuel rest

/-- Model of `patch.rs::parse_unified_diff`. -/
def parse_unified_diff (input : String) : Except String (List FileDiff) :=
  if trimStr input = "" then .ok []
  else parseFilesGo ((rustLines input).length + 1) (rustLines input)

/-- True iff `parse_hunk_header` rejects this line (the hunk-header range
syntax cannot be tokenized: missing closing `" @@"` marker, a range part not
consisting of exactly two ranges, or a start/count that does not parse as a
`u32`). -/
def hunkHeaderFails (l : String) : Bool :=
  match parse_hunk_header l with
  | .ok _ => false
  | .error _ => true

/-- The error message `parse_hunk_header` produces for a failing line. -/
def hunkHeaderErr (l : String) : String :=
  match parse_hunk_header l with
  | .ok _ => ""
  | .error e => e

/-- First line starting with `"@@ "` whose header fails, scanning everything
(used for the region after the first `"diff --git "` line, all of which lies
inside file sections). -/
def firstBadAll : List String → Option String
  | [] => none
  | l :: rest =>
    if swStr l "@@ " && hunkHeaderFails l then some l else firstBadAll rest

/-- Like `firstBadAll` but stopping at the next `"diff --git "` boundary
(the scope scanned while parsing a single file section). -/
def firstBadSection : List String → Option String
  | [] => none
  | l :: rest =>
    if swStr l "diff --git " then none
    else if swStr l "@@ " && hunkHeaderFails l then some l
    else firstBadSection rest

/-- First failing hunk-header line located after the first `"diff --git "`
line of the input (the lines text ingestion actually reaches as headers). -/
def firstBadGlobal : List String → Option String
  | [] => none
  | l :: rest =>
    if swStr l "diff --git " then firstBadAll rest else firstBadGlobal rest

/-! ## Comment extraction (src/editor.rs::parse_comment_result) -/

/-- Model of `editor.rs::lines_match`: exact equality, or equality after
trimming trailing whitespace. -/
def lines_match (edited original : String) : Bool :=
  edited = original || trimRightStr edited = trimRightStr original

/-- Search loop for `findAhead`, carrying the absolute index. -/
def findAheadGo (e : String) : List String → Nat → Option Nat
  | [], _ => none
  | o :: rest, j => if lines_match e o then some j else findAheadGo e rest (j + 1)

/-- The forward search of `parse_comment_result`: first index `j ≥ fromIdx`
into the original body matching the edited line. -/
def findAhead (origBody : List String) (e : String) (fromIdx : Nat) : Option Nat :=
  findAheadGo e (origBody.drop fromIdx) fromIdx

/-- Comment text extraction: strip a legacy `"# COMMENT:"` marker if present,
then trim. -/
def commentText (e : String) : String :=
  match stripPfxStr "# COMMENT:" e with
  | some s => trimStr s
  | none => trimStr e

/-- The lockstep-with-lookahead walk of `parse_comment_result` over the edited
body, carrying the cursor into the original body; returns the positioned
comments in order of appearance. -/
def walkComments (origBody : List String) : List String → Nat → Nat → List (Nat × String)
  | [], _, _ => []
  | e :: rest, origIdx, hlLen =>
    if origIdx < origBody.length && lines_match e (origBody.getD origIdx "") then
      walkComments origBody rest (origIdx + 1) hlLen
    else
      match (if trimStr e ≠ "" then findAhead origBody e (origIdx + 1) else none) with
      | some j => walkComments origBody rest (j + 1) hlLen
      | none =>
        if trimStr e ≠ "" then
          let text := commentText e
          if text ≠ "" then (min origIdx hlLen, text) :: walkComments origBody rest origIdx hlLen
          else walkComments origBody rest origIdx hlLen
        else walkComments origBody rest origIdx hlLen

/-- Index of the first empty line, if any. -/
def firstEmptyIdx : List String → Option Nat
  | [] => none
  | l :: rest => if l = "" then some 0 else (firstEmptyIdx rest).map (· + 1)

/-- Where the template body begins: one past the first empty line of the
original template, or 0 when there is none. -/
def bodyStartOf (originalLines : List String) : Nat :=
  match firstEmptyIdx originalLines with
  | some i => i + 1
  | none => 0

/-- Model of `editor.rs::parse_comment_result` (the core of
`extract_comment`). -/
def parse_comment_result (original edited : String) (file_path hunk_header : String)
    (hunk_lines : List DiffLine) : Option HunkFeedback :=
  let originalLines := rustLines original
  let editedLines := rustLines edited
  let bodyStart := bodyStartOf originalLines
  let originalBody := originalLines.drop bodyStart
  let editedBody :=
    if bodyStart < editedLines.length then editedLines.drop bodyStart else editedLines
  let pcs := walkComments originalBody editedBody 0 hunk_lines.length
  if pcs.isEmpty then none
  else
    some
      { file_path := file_path
        hunk_header := hunk_header
        kind := .Comment
        content := strJoin "\n" (pcs.map (fun pc => pc.2))
        context_lines := hunk_lines
        comment_positions := pcs }

/-! ## Feedback formatter (src/feedback.rs) -/

/-- Concatenation of a list of strings (sequence of `push_str` calls). -/
def strConcat : List String → String
  | [] => ""
  | s :: ss => s ++ strConcat ss

/-- Lexicographic order on character lists, model of the byte order `BTreeMap`
uses for its string keys. -/
def charListLt : List Char → List Char → Bool
  | [], [] => false
  | [], _ :: _ => true
  | _ :: _, [] => false
  | a :: as, b :: bs => if a = b then charListLt as bs else decide (a < b)

/-- Insertion step of the sorted-key computation. -/
def insertStr (x : String) : List String → List String
  | [] => [x]
  | y :: ys => if charListLt x.data y.data then x :: y :: ys else y :: insertStr x ys

/-- Insertion sort of strings. -/
def sortStrs : List String → List String
  | [] => []
  | x :: xs => insertStr x (sortStrs xs)

/-- Collapse adjacent duplicates of a sorted list. -/
def dedupAdj : List String → List String
  | [] => []
  | [x] => [x]
  | x :: y :: xs => if x = y then dedupAdj (y :: xs) else x :: dedupAdj (y :: xs)

/-- The distinct file paths of the feedback list in ascending order (the
iteration order of the grouping `BTreeMap`). -/
def sortedKeys (fbs : List HunkFeedback) : List String :=
  dedupAdj (sortStrs (fbs.map (fun fb => fb.file_path)))

/-- A merged context region around one or more comment positions
(`format_comment_with_context::CommentRegion`): hunk-line range `[rstart, rend)`
and the comments placed inside it. -/
structure CommentRegion where
  rstart : Nat
  rend : Nat
  comments : List (Nat × String)
deriving DecidableEq, Repr

/-- Region construction of `format_comment_with_context`: a window of
`contextCount` lines on both sides of each comment position, merged with the
previous region when they touch or overlap. -/
def buildRegions (positions : List (Nat × String)) (contextCount n : Nat) : List CommentRegion :=
  positions.foldl
    (fun regions pc =>
      let ctxStart := pc.1 - contextCount
      let ctxEnd := min (pc.1 + contextCount) n
      match regions.getLast? with
      | some last =>
        if ctxStart ≤ last.rend then
          regions.dropLast
            ++ [{ last with rend := max last.rend ctxEnd, comments := last.comments ++ [pc] }]
        else regions ++ [⟨ctxStart, ctxEnd, [pc]⟩]
      | none => [⟨ctxStart, ctxEnd, [pc]⟩])
    []

/-- The kind-prefix of a diff line (`types.rs::LineKind::prefix`). -/
def kindSw : LineKind → String
  | .Context => " "
  | .Added => "+"
  | .Removed => "-"

/-- A rendered review-comment line. -/
def commentLine (t : String) : String := "# REVIEW COMMENT: " ++ t ++ "\n"

/-- A rendered hunk line: kind-prefix, content without the trailing newline,
then a newline. -/
def renderLine (l : DiffLine) : String := kindSw l.kind ++ dropTrailingNl l.content ++ "\n"

/-- Splits the pending comments into those placed at position `i` (emitted
now) and the rest (the `comment_idx` while-loop of the emitter). -/
def takeAt : List (Nat × String) → Nat → (List String × List (Nat × String))
  | [], _ => ([], [])
  | c :: rest, i =>
    if c.1 = i then
      let r := takeAt rest i
      (c.2 :: r.1, r.2)
    else ([], c :: rest)

/-- The emit loop for one region: for `k` remaining positions starting at
line index `i`, emit the comments anchored at `i`, then the hunk line, and
afterwards any comments that remain (positions past the region's end). -/
def emitRegionGo (ctxLines : List DiffLine) : Nat → Nat → List (Nat × String) → String
  | _, 0, comments => strConcat (comments.map (fun c => commentLine c.2))
  | i, k + 1, comments =>
    let t := takeAt comments i
    strConcat (t.1.map commentLine)
      ++ (match ctxLines.get? i with
          | some l => renderLine l
          | none => "")
      ++ emitRegionGo ctxLines (i + 1) k t.2

/-- Renders one comment region. -/
def emitRegion (ctx : List DiffLine) (r : CommentRegion) : String :=
  emitRegionGo ctx r.rstart (r.rend - r.rstart) r.comments

/-- Renders the region list, with the `"  ..."` separator before every region
after the first. -/
def renderRegions (ctx : List DiffLine) : List CommentRegion → String
  | [] => ""
  | [r] => emitRegion ctx r
  | r :: r2 :: rs => emitRegion ctx r ++ "  ...\n" ++ renderRegions ctx (r2 :: rs)

/-- Model of `feedback.rs::format_comment_with_context`. -/
def format_comment_with_context (fb : HunkFeedback) (contextCount : Nat) : String :=
  if fb.comment_positions.isEmpty then
    strConcat ((rustLines fb.content).map commentLine)
  else
    renderRegions fb.context_lines
      (buildRegions fb.comment_positions contextCount fb.context_lines.length)

/-- The per-feedback rendering step of `format_feedback`. -/
def formatOneFeedback (fb : HunkFeedback) (contextCount : Nat) : String :=
  match fb.kind with
  | .Edit =>
    fb.hunk_header ++ "\n" ++ fb.content ++ (if endsWithNl fb.content then "" else "\n")
  | .Comment => fb.hunk_header ++ "\n" ++ format_comment_with_context fb contextCount

/-- Model of `feedback.rs::format_feedback`. -/
def format_feedback (feedbacks : List HunkFeedback) (context_count : Nat) : String :=
  if feedbacks.isEmpty then ""
  else
    strConcat
      ((sortedKeys feedbacks).map (fun p =>
        "--- a/" ++ p ++ "\n" ++ "+++ b/" ++ p ++ "\n"
          ++ strConcat
            ((feedbacks.filter (fun fb => fb.file_path = p)).map
              (fun fb => formatOneFeedback fb context_count))))

/-- Substring containment test (whether `needle` occurs in `hay`). -/
def containsSeg (needle : List Char) : List Char → Bool
  | [] => decide (needle = [])
  | c :: rest => isPfx needle (c :: rest) || containsSeg needle rest

/-- Whether `pat` occurs as a substring of `s`. -/
def strContains (s pat : String) : Bool := containsSeg pat.data s.data

/-! ## Claim-support definitions and concrete instances -/

/-- Whether a diff line is a change (non-Context) line. -/
def changeP (l : DiffLine) : Bool := decide (l.kind ≠ LineKind.Context)

/-- The line at index `k` exists and is a change (non-Context) line. -/
def changeAt (lines : List DiffLine) (k : Nat) : Prop :=
  ∃ l2, lines[k]? = some l2 ∧ l2.kind ≠ LineKind.Context

/-- The file list a successful text ingestion produces (empty on error). -/
def ingestOk (s : String) : List FileDiff :=
  match parse_unified_diff s with
  | .ok f => f
  | .error _ => []

/-- A diff line with no line-number annotations. -/
def mkLine (k : LineKind) (s : String) : DiffLine := ⟨k, s, none, none⟩

/-- A hunk with two one-line regions separated by one context line: the
smallest hunk on which `split_hunk` drops lines. -/
def cexSplitHunk : Hunk :=
  { header := "@@ -1,2 +1,3 @@"
    lines := [mkLine .Added "a\n", mkLine .Context "c\n", mkLine .Added "b\n"]
    status := .Pending
    old_start := 1
    old_lines := 1
    new_start := 1
    new_lines := 2 }

/-- A hunk with a single region (unsplittable). -/
def witSingleRegionHunk : Hunk :=
  { header := "@@ -1,3 +1,3 @@"
    lines := [mkLine .Context "x\n", mkLine .Removed "y\n", mkLine .Added "z\n",
      mkLine .Context "w\n"]
    status := .Staged
    old_start := 1
    old_lines := 3
    new_start := 1
    new_lines := 3 }

/-- A hunk with two regions separated by four context lines, where midpoint
clamping would keep two context lines on each side but the code keeps one. -/
def cexMidpointHunk : Hunk :=
  { header := "@@ -1,5 +1,6 @@"
    lines := [mkLine .Added "a\n", mkLine .Context "c1\n", mkLine .Context "c2\n",
      mkLine .Context "c3\n", mkLine .Context "c4\n", mkLine .Added "b\n"]
    status := .Pending
    old_start := 1
    old_lines := 4
    new_start := 1
    new_lines := 6 }

/-- The hunk of the specification's apply scenario. -/
def c2ScenarioHunk : Hunk :=
  { header := "@@ -1,3 +1,3 @@"
    lines := [⟨.Context, "line1\n", some 1, some 1⟩, ⟨.Removed, "old\n", some 2, none⟩,
      ⟨.Added, "new\n", none, some 2⟩, ⟨.Context, "line3\n", some 3, some 3⟩]
    status := .Pending
    old_start := 1
    old_lines := 3
    new_start := 1
    new_lines := 3 }

/-- A hunk whose declared `old_start` is `2^31`: within `u32` (so reachable
through a parsed `@@ -2147483648,0 +1,1 @@` header) but wrapped to `-2^31` by
the `u32 → i32` cast in `reconstruct_blob`. -/
def cexWrapHunk : Hunk :=
  { header := "@@ -2147483648,0 +1,1 @@"
    lines := [mkLine .Added "x\n"]
    status := .Pending
    old_start := 2147483648
    old_lines := 0
    new_start := 1
    new_lines := 1 }

/-- A file with one Staged hunk whose declared `new_lines` is `2^31`: within
`u32` (so reachable through a parsed header) but wrapped to `-2^31` by the
`u32 → i32` cast in `compute_line_offset`. -/
def cexWrapFile : FileDiff :=
  { path := "foo.rs"
    hunks :=
      [{ header := "@@ -1,0 +1,2147483648 @@"
         lines := []
         status := .Staged
         old_start := 1
         old_lines := 0
         new_start := 1
         new_lines := 2147483648 }]
    status := .Modified
    is_binary := false }

/-- A unified diff whose hunk header declares 5/5 lines but whose body parses
to 1/1 lines. -/
def cexMismatchDiff : String :=
  "diff --git a/foo.rs b/foo.rs\n--- a/foo.rs\n+++ b/foo.rs\n@@ -1,5 +1,5 @@\n ctx\n"

/-- A unified diff with a non-numeric hunk-header range. -/
def cexBadHeaderDiff : String :=
  "diff --git a/foo.rs b/foo.rs\n--- a/foo.rs\n+++ b/foo.rs\n@@ -BAD +STUFF @@\n context\n"

/-- A unified diff whose hunk-header range is numeric but exceeds `u32`. -/
def cexOverflowDiff : String :=
  "diff --git a/foo.rs b/foo.rs\n--- a/foo.rs\n+++ b/foo.rs\n@@ -99999999999,1 +1,1 @@\n ctx\n"

/-- The comment template `prepare_comment_tempfile` builds for a three-line
hunk (Context `line1`, Removed `old`, Added `new`). -/
def commentTemplate : String :=
  "# Add your comments anywhere in this file.\n# Any new lines you add will be captured as comments.\n# @@ -1,3 +1,4 @@\n\n line1\n-old\n+new\n"

/-- The hunk lines of `commentTemplate`'s hunk. -/
def commentHunkLines : List DiffLine :=
  [⟨.Context, "line1\n", some 1, some 1⟩, ⟨.Removed, "old\n", some 2, none⟩,
    ⟨.Added, "new\n", none, some 2⟩]

/-- `commentTemplate` with one comment line appended at the end. -/
def commentEditedAppended : String :=
  commentTemplate ++ "# COMMENT: This change looks good but needs a test\n"

/-- `commentTemplate` with the `-old` body line replaced by a comment. -/
def commentEditedReplaced : String :=
  "# Add your comments anywhere in this file.\n# Any new lines you add will be captured as comments.\n# @@ -1,3 +1,4 @@\n\n line1\nwhy was this removed?\n+new\n"

/-- The expected feedback for `commentEditedAppended`. -/
def witAppendedFeedback : HunkFeedback :=
  { file_path := "src/main.rs"
    hunk_header := "@@ -1,3 +1,4 @@"
    kind := .Comment
    content := "This change looks good but needs a test"
    context_lines := commentHunkLines
    comment_positions := [(3, "This change looks good but needs a test")] }

/-- A degenerate template whose first empty line is its last line. -/
def cexDegenerateTemplate : String := "a\n\n"

/-- Nine hunk lines with two change regions far apart. -/
def sepContextLines : List DiffLine :=
  [mkLine .Context "line1\n", mkLine .Removed "old_a\n", mkLine .Added "new_a\n",
    mkLine .Context "line3\n", mkLine .Context "line4\n", mkLine .Context "line5\n",
    mkLine .Removed "old_b\n", mkLine .Added "new_b\n", mkLine .Context "line7\n"]

/-- One Comment feedback carrying two far-apart comments. -/
def witTwoCommentFeedback : HunkFeedback :=
  { file_path := "src/main.rs"
    hunk_header := "@@ -1,7 +1,7 @@"
    kind := .Comment
    content := "First comment\nSecond comment"
    context_lines := sepContextLines
    comment_positions := [(3, "First comment"), (8, "Second comment")] }

/-- A Comment feedback with a single comment early in the hunk. -/
def cexSepFeedbackA : HunkFeedback :=
  { file_path := "src/main.rs"
    hunk_header := "@@ -1,7 +1,7 @@"
    kind := .Comment
    content := "First comment"
    context_lines := sepContextLines
    comment_positions := [(1, "First comment")] }

/-- A Comment feedback with a single comment late in the hunk. -/
def cexSepFeedbackB : HunkFeedback :=
  { file_path := "src/main.rs"
    hunk_header := "@@ -1,7 +1,7 @@"
    kind := .Comment
    content := "Second comment"
    context_lines := sepContextLines
    comment_positions := [(8, "Second comment")] }

deriving instance DecidableEq for Except

/-! ## Theorems -/

/-- The emission loop of `reconstruct_blob` is a `filterMap`. -/
theorem emitHunkLines_eq (ls : List DiffLine) :
    emitHunkLines ls =
      ls.filterMap
        (fun l => if l.kind = LineKind.Removed then none else some (dropTrailingNl l.content)) := by
  induction ls with
  | nil => rfl
  | cons l rest ih =>
    cases hk : l.kind <;> simp [emitHunkLines, hk, ih]

/-- The two ways of computing the adjusted 0-based start index agree. -/
theorem adjusted_start_eq (s : Nat) (off : Int) :
    (if (max ((s : Int) + off) 0).toNat = 0 then 0 else (max ((s : Int) + off) 0).toNat - 1)
      = (max 0 ((s : Int) + off - 1)).toNat := by
  split <;> omega

/-- `wrapI32` is the identity on values already in the `i32` range. -/
theorem wrapI32_eq_self (n : Int) (h1 : -2147483648 ≤ n) (h2 : n < 2147483648) :
    wrapI32 n = n := by
  unfold wrapI32
  omega

/-- C2 (amended): whenever `old_start < 2^31` and `old_start + offset` fits in
`i32` — always true for diffs of realistic size — `apply(original, hunk,
offset)` copies the original lines before index `max(0, old_start + offset −
1)`, emits Context and Added content while discarding Removed lines, copies
the original lines from `adjusted_start + old_lines` onward, joins with
newlines, and appends a trailing newline iff the original was empty or
newline-terminated (`reconstruct_blob` refines the specification's
description under those bounds). -/
theorem reconstruct_blob_correct (original : String) (hunk : Hunk) (offset : Int)
    (hs : (hunk.old_start : Int) < 2147483648)
    (hr1 : -2147483648 ≤ (hunk.old_start : Int) + offset)
    (hr2 : (hunk.old_start : Int) + offset < 2147483648) :
    reconstruct_blob original hunk offset = reconstructSpec original hunk offset := by
  have e1 : wrapI32 (hunk.old_start : Int) = (hunk.old_start : Int) :=
    wrapI32_eq_self _ (by omega) hs
  have e2 : wrapI32 ((hunk.old_start : Int) + offset) = (hunk.old_start : Int) + offset :=
    wrapI32_eq_self _ hr1 hr2
  by_cases h0 : original = ""
  · subst h0
    simp [reconstruct_blob, reconstructSpec, emitHunkLines_eq, rustLines, e1, e2]
  · simp only [reconstruct_blob, reconstructSpec, if_neg h0, emitHunkLines_eq, e1, e2]
    rw [adjusted_start_eq]
    simp [h0]

/-- Witness for C2: the specification's scenario hunk applied to
`"line1\nold\nline3\n"` with offset 0 satisfies the bounds, refines the
spec-side apply, and yields `"line1\nnew\nline3\n"`. -/
theorem reconstruct_blob_correct_witness :
    reconstruct_blob "line1\nold\nline3\n" c2ScenarioHunk 0
        = reconstructSpec "line1\nold\nline3\n" c2ScenarioHunk 0 ∧
      reconstruct_blob "line1\nold\nline3\n" c2ScenarioHunk 0 = "line1\nnew\nline3\n" :=
  ⟨reconstruct_blob_correct "line1\nold\nline3\n" c2ScenarioHunk 0
      (by decide) (by decide) (by decide),
    by decide⟩

/-- Counterexample for C2 as stated: for a hunk with `old_start = 2^31`
(reachable through a parsed header) the wrapping `u32 → i32` cast makes the
code clamp the insertion to index 0, while the specification's
`max(0, old_start + offset − 1)` places it after the whole file. -/
theorem reconstruct_wrap_cex :
    reconstruct_blob "a\nb\n" cexWrapHunk 0 = "x\na\nb\n" ∧
      reconstructSpec "a\nb\n" cexWrapHunk 0 = "a\nb\nx\n" ∧
      reconstruct_blob "a\nb\n" cexWrapHunk 0 ≠ reconstructSpec "a\nb\n" cexWrapHunk 0 := by
  decide

/-- The staging-offset loop equals the exact staged sum over the first
`target - idx` hunks, whenever the declared counts are below `2^31` and every
partial sum (shifted by the accumulator) stays in the `i32` range, so that no
wrap occurs. -/
theorem offsetGo_eq (hunks : List Hunk) :
    ∀ (idx target : Nat) (acc : Int), idx ≤ target →
      (∀ h ∈ hunks.take (target - idx),
          h.old_lines < 2147483648 ∧ h.new_lines < 2147483648) →
      (∀ j ≤ target - idx, -2147483648 ≤ acc + stagedSum hunks j ∧
          acc + stagedSum hunks j < 2147483648) →
      offsetGo hunks idx target acc = acc + stagedSum hunks (target - idx) := by
  induction hunks with
  | nil =>
    intro idx target acc _ _ _
    simp [offsetGo, stagedSum]
  | cons h rest ih =>
    intro idx target acc hle hb hps
    by_cases he : idx = target
    · subst he
      simp [offsetGo, stagedSum, Nat.sub_self]
    · have hlt : idx < target := lt_of_le_of_ne hle he
      have hk : target - idx = (target - (idx + 1)) + 1 := by omega
      have hh : h.old_lines < 2147483648 ∧ h.new_lines < 2147483648 := by
        apply hb
        rw [hk, List.take_succ_cons]
        exact List.mem_cons_self h _
      have hb2 : ∀ h2 ∈ rest.take (target - (idx + 1)),
          h2.old_lines < 2147483648 ∧ h2.new_lines < 2147483648 := by
        intro h2 hh2
        apply hb
        rw [hk, List.take_succ_cons]
        exact List.mem_cons_of_mem _ hh2
      by_cases hst : h.status = HunkStatus.Staged
      · have hsumstep : ∀ j, stagedSum (h :: rest) (j + 1)
            = ((h.new_lines : Int) - (h.old_lines : Int)) + stagedSum rest j := by
          intro j
          simp [stagedSum, hst]
        have hacc : wrapI32 (acc + wrapI32 (wrapI32 (h.new_lines : Int)
              - wrapI32 (h.old_lines : Int)))
            = acc + ((h.new_lines : Int) - (h.old_lines : Int)) := by
          have w1 : wrapI32 (h.new_lines : Int) = (h.new_lines : Int) :=
            wrapI32_eq_self _ (by omega) (by omega)
          have w2 : wrapI32 (h.old_lines : Int) = (h.old_lines : Int) :=
            wrapI32_eq_self _ (by omega) (by omega)
          have w3 : wrapI32 ((h.new_lines : Int) - (h.old_lines : Int))
              = (h.new_lines : Int) - (h.old_lines : Int) :=
            wrapI32_eq_self _ (by omega) (by omega)
          have hp1 := hps 1 (by omega)
          rw [show stagedSum (h :: rest) 1
              = ((h.new_lines : Int) - (h.old_lines : Int)) + stagedSum rest 0 from hsumstep 0,
            show stagedSum rest 0 = 0 from by simp [stagedSum]] at hp1
          rw [w1, w2, w3]
          exact wrapI32_eq_self _ (by omega) (by omega)
        have hstep : offsetGo (h :: rest) idx target acc
            = offsetGo rest (idx + 1) target
                (acc + ((h.new_lines : Int) - (h.old_lines : Int))) := by
          simp only [offsetGo]
          rw [if_neg he, if_pos hst, hacc]
        have hps2 : ∀ j ≤ target - (idx + 1),
            -2147483648 ≤ (acc + ((h.new_lines : Int) - (h.old_lines : Int))) + stagedSum rest j ∧
              (acc + ((h.new_lines : Int) - (h.old_lines : Int))) + stagedSum rest j
                < 2147483648 := by
          intro j hj
          have := hps (j + 1) (by omega)
          rw [hsumstep j] at this
          exact ⟨by omega, by omega⟩
        rw [hstep, ih (idx + 1) target _ hlt hb2 hps2, hk, hsumstep]
        ring
      · have hsumstep : ∀ j, stagedSum (h :: rest) (j + 1) = stagedSum rest j := by
          intro j
          simp [stagedSum, hst]
        have hstep : offsetGo (h :: rest) idx target acc
            = offsetGo rest (idx + 1) target acc := by
          simp only [offsetGo]
          rw [if_neg he, if_neg hst]
        have hps2 : ∀ j ≤ target - (idx + 1), -2147483648 ≤ acc + stagedSum rest j ∧
            acc + stagedSum rest j < 2147483648 := by
          intro j hj
          have := hps (j + 1) (by omega)
          rw [hsumstep j] at this
          exact this
        rw [hstep, ih (idx + 1) target acc hlt hb2 hps2, hk, hsumstep]

/-- The spec-side offset is the exact staged sum over the file's hunk list. -/
theorem offsetSpec_eq (files : List FileDiff) (file_idx j : Nat) :
    offsetSpec files file_idx j = stagedSum (hunksAt files file_idx) j := by
  unfold offsetSpec hunksAt stagedSum
  cases files.get? file_idx <;> simp

/-- C3 (amended): whenever every hunk before the target has declared counts
below `2^31` and every partial staged sum fits in `i32` — always true for
diffs of realistic size — the offset computed before staging hunk `i` is the
exact sum of `new_lines − old_lines` over the Staged hunks at indices below
`i` in the same file. -/
theorem compute_line_offset_correct (files : List FileDiff) (file_idx hunk_idx : Nat)
    (hb : ∀ h ∈ (hunksAt files file_idx).take hunk_idx,
        h.old_lines < 2147483648 ∧ h.new_lines < 2147483648)
    (hps : ∀ j ≤ hunk_idx, -2147483648 ≤ offsetSpec files file_idx j ∧
        offsetSpec files file_idx j < 2147483648) :
    compute_line_offset files file_idx hunk_idx = offsetSpec files file_idx hunk_idx := by
  have h1 : compute_line_offset files file_idx hunk_idx
      = offsetGo (hunksAt files file_idx) 0 hunk_idx 0 := by
    unfold compute_line_offset hunksAt
    cases files.get? file_idx
    · simp [offsetGo]
    · rfl
  rw [h1, offsetSpec_eq]
  have hres := offsetGo_eq (hunksAt files file_idx) 0 hunk_idx 0 (Nat.zero_le _)
    (by simpa using hb)
    (by
      intro j hj
      have := hps j (by omega)
      rw [offsetSpec_eq] at this
      simpa using this)
  simpa using hres

/-- Witness for C3: a file with Staged hunks of counts (1, 3) and (2, 2)
before the target index satisfies the bounds, and the computed offset is the
exact sum 2. -/
theorem compute_line_offset_correct_witness :
    compute_line_offset
        [{ path := "a.rs"
           hunks :=
             [{ header := "@@ -1,1 +1,3 @@", lines := [], status := .Staged,
                old_start := 1, old_lines := 1, new_start := 1, new_lines := 3 },
              { header := "@@ -9,2 +9,2 @@", lines := [], status := .Staged,
                old_start := 9, old_lines := 2, new_start := 11, new_lines := 2 }]
           status := .Modified
           is_binary := false }] 0 2
      = offsetSpec
          [{ path := "a.rs"
             hunks :=
               [{ header := "@@ -1,1 +1,3 @@", lines := [], status := .Staged,
                  old_start := 1, old_lines := 1, new_start := 1, new_lines := 3 },
                { header := "@@ -9,2 +9,2 @@", lines := [], status := .Staged,
                  old_start := 9, old_lines := 2, new_start := 11, new_lines := 2 }]
             status := .Modified
             is_binary := false }] 0 2 :=
  compute_line_offset_correct _ 0 2 (by decide) (by decide)

/-- Counterexample for C3 as stated: a Staged hunk with declared
`new_lines = 2^31` (reachable through a parsed header) is wrapped to `-2^31`
by the `u32 → i32` cast, so the computed offset is `-2^31` while the exact
sum is `2^31`. -/
theorem compute_line_offset_wrap_cex :
    compute_line_offset [cexWrapFile] 0 1 = -2147483648 ∧
      offsetSpec [cexWrapFile] 0 1 = 2147483648 ∧
      compute_line_offset [cexWrapFile] 0 1 ≠ offsetSpec [cexWrapFile] 0 1 := by
  decide

/-- C4 (amended): when the hunk header parses, hunk parsing always succeeds —
a count mismatch only raises the warning flag — and the built hunk carries
the header's declared `old_lines`/`new_lines`, with the warning raised
exactly when the parsed per-kind counts disagree with them. -/
theorem parse_hunk_mismatch_behavior (l : String) (rest : List String)
    (os ol ns nl : Nat) (hd : String)
    (hok : parse_hunk_header l = .ok (os, ol, ns, nl, hd)) :
    ∃ hunk rem warn, parse_hunk l rest = .ok (hunk, rem, warn) ∧
      hunk.old_lines = ol ∧ hunk.new_lines = nl ∧ hunk.header = hd ∧
      (warn = true ↔ (countOldLines hunk.lines ≠ ol ∨ countNewLines hunk.lines ≠ nl)) := by
  unfold parse_hunk
  rw [hok]
  exact ⟨_, _, _, rfl, rfl, rfl, rfl, by simp⟩

/-- Witness for C4: the header `@@ -1,5 +1,5 @@` over the body `[" ctx"]`
parses with the warning raised and the declared counts kept. -/
theorem parse_hunk_mismatch_behavior_witness :
    ∃ hunk rem warn, parse_hunk "@@ -1,5 +1,5 @@" [" ctx"] = .ok (hunk, rem, warn) ∧
      hunk.old_lines = 5 ∧ hunk.new_lines = 5 ∧ hunk.header = "@@ -1,5 +1,5 @@" ∧
      (warn = true ↔ (countOldLines hunk.lines ≠ 5 ∨ countNewLines hunk.lines ≠ 5)) :=
  parse_hunk_mismatch_behavior "@@ -1,5 +1,5 @@" [" ctx"] 1 5 1 5 "@@ -1,5 +1,5 @@" (by decide)

/-- Counterexample for C4 as stated: ingesting a diff whose header declares
5/5 lines but whose body parses to 1/1 succeeds, yet the resulting hunk's
`old_lines`/`new_lines` are the declared counts 5/5, not the parsed counts. -/
theorem parse_hunk_mismatch_cex :
    (parse_unified_diff cexMismatchDiff).isOk = true ∧
      (ingestOk cexMismatchDiff).map
          (fun f => f.hunks.map
            (fun h => (h.old_lines, h.new_lines, countOldLines h.lines, countNewLines h.lines)))
        = [[(5, 5, 1, 1)]] := by
  decide

/-- `lines_match` is reflexive. -/
theorem lines_match_refl (s : String) : lines_match s s = true := by
  simp [lines_match]

/-- Step equation of the comment walk: a cursor match advances the cursor. -/
theorem walk_cons_match {O : List String} {e : String} {rest : List String} {i hl : Nat}
    (h : (decide (i < O.length) && lines_match e (O.getD i "")) = true) :
    walkComments O (e :: rest) i hl = walkComments O rest (i + 1) hl := by
  simp only [walkComments, h, if_true]

/-- Step equation of the comment walk: on a cursor mismatch of a non-blank
line, a successful lookahead moves the cursor past the match. -/
theorem walk_cons_ahead {O : List String} {e : String} {rest : List String} {i j hl : Nat}
    (hc : (decide (i < O.length) && lines_match e (O.getD i "")) = false)
    (ht : trimStr e ≠ "") (hf : findAhead O e (i + 1) = some j) :
    walkComments O (e :: rest) i hl = walkComments O rest (j + 1) hl := by
  simp only [walkComments, hc, Bool.false_eq_true, if_false, if_neg, ht, ite_not, if_neg ht, hf]

/-- Step equation of the comment walk: a non-blank line with no match and
nonempty comment text is recorded as a comment at the cursor. -/
theorem walk_cons_comment {O : List String} {e : String} {rest : List String} {i hl : Nat}
    (hc : (decide (i < O.length) && lines_match e (O.getD i "")) = false)
    (ht : trimStr e ≠ "") (hf : findAhead O e (i + 1) = none)
    (htext : commentText e ≠ "") :
    walkComments O (e :: rest) i hl
      = (min i hl, commentText e) :: walkComments O rest i hl := by
  simp only [walkComments]
  rw [hc]
  simp [ht, hf, htext]

/-- Step equation of the comment walk: a non-blank line with no match whose
comment text is empty is dropped. -/
theorem walk_cons_comment_skip {O : List String} {e : String} {rest : List String} {i hl : Nat}
    (hc : (decide (i < O.length) && lines_match e (O.getD i "")) = false)
    (ht : trimStr e ≠ "") (hf : findAhead O e (i + 1) = none)
    (htext : commentText e = "") :
    walkComments O (e :: rest) i hl = walkComments O rest i hl := by
  simp only [walkComments]
  rw [hc]
  simp [ht, hf, htext]

/-- Step equation of the comment walk: a blank mismatching line is dropped
without moving the cursor. -/
theorem walk_cons_blank {O : List String} {e : String} {rest : List String} {i hl : Nat}
    (hc : (decide (i < O.length) && lines_match e (O.getD i "")) = false)
    (ht : trimStr e = "") :
    walkComments O (e :: rest) i hl = walkComments O rest i hl := by
  simp only [walkComments]
  rw [hc]
  simp [ht]

/-- The forward-search loop only returns indices at or past its start. -/
theorem findAheadGo_ge {e : String} :
    ∀ (l : List String) (j r : Nat), findAheadGo e l j = some r → j ≤ r := by
  intro l
  induction l with
  | nil => intro j r h; exact absurd h (by simp [findAheadGo])
  | cons o rest ih =>
    intro j r h
    by_cases hm : lines_match e o = true
    · simp [findAheadGo, hm] at h
      omega
    · rw [findAheadGo, if_neg hm] at h
      have := ih (j + 1) r h
      omega

/-- `findAhead` only returns indices at or past `fromIdx`. -/
theorem findAhead_ge {O : List String} {e : String} {f j : Nat}
    (h : findAhead O e f = some j) : f ≤ j :=
  findAheadGo_ge _ _ _ h

/-- The forward-search loop fails when nothing in the list matches. -/
theorem findAheadGo_none {e : String} :
    ∀ (l : List String) (j : Nat), (∀ x ∈ l, lines_match e x = false) →
      findAheadGo e l j = none := by
  intro l
  induction l with
  | nil => intro j _; rfl
  | cons o rest ih =>
    intro j hall
    rw [findAheadGo, if_neg (by simp [hall o (by simp)])]
    exact ih (j + 1) (fun x hx => hall x (by simp [hx]))

/-- The forward-search loop finds something at or before a known match. -/
theorem findAheadGo_some_le {e : String} :
    ∀ (l : List String) (j k : Nat), k < l.length → lines_match e (l.getD k "") = true →
      ∃ r, findAheadGo e l j = some r ∧ r ≤ j + k := by
  intro l
  induction l with
  | nil => intro j k hk _; simp at hk
  | cons o rest ih =>
    intro j k hk hm
    by_cases ho : lines_match e o = true
    · exact ⟨j, by simp [findAheadGo, ho], by omega⟩
    · cases k with
      | zero => simp at hm; exact absurd hm ho
      | succ k2 =>
        obtain ⟨r, hr, hrle⟩ := ih (j + 1) k2 (by simpa using hk) (by simpa using hm)
        exact ⟨r, by rw [findAheadGo, if_neg ho]; exact hr, by omega⟩

/-- `findAhead` succeeds, at an index between `f` and a known match. -/
theorem findAhead_some_le {O : List String} {e : String} {f m : Nat}
    (hf : f ≤ m) (hm : m < O.length) (hmatch : lines_match e (O.getD m "") = true) :
    ∃ j, findAhead O e f = some j ∧ f ≤ j ∧ j ≤ m := by
  have hk : m - f < (O.drop f).length := by
    have hlen : (O.drop f).length = O.length - f := by simp
    omega
  have hg : (O.drop f).getD (m - f) "" = O.getD m "" := by
    have hfm : f + (m - f) = m := by omega
    rw [List.getD_eq_getElem?_getD, List.getD_eq_getElem?_getD, List.getElem?_drop, hfm]
  obtain ⟨r, hr, hrle⟩ := findAheadGo_some_le (O.drop f) f (m - f) hk (by rw [hg]; exact hmatch)
  exact ⟨r, hr, findAheadGo_ge _ _ _ hr, by omega⟩

/-- `findAhead` fails when no line at or past `fromIdx` matches. -/
theorem findAhead_none {O : List String} {e : String} {f : Nat}
    (h : ∀ x ∈ O.drop f, lines_match e x = false) : findAhead O e f = none :=
  findAheadGo_none _ _ h

/-- The comment walk produces nothing when the edited body is a suffix of the
original body starting at or past the cursor: every line re-synchronizes. -/
theorem walk_drop_nil :
    ∀ (d O : List String) (m i hl : Nat), O.drop m = d → i ≤ m →
      walkComments O d i hl = [] := by
  intro d
  induction d with
  | nil => intro O m i hl _ _; rfl
  | cons e d2 ih =>
    intro O m i hl hdrop hle
    have hmlen : m < O.length := by
      by_contra hc
      rw [List.drop_eq_nil_of_le (by omega)] at hdrop
      exact List.cons_ne_nil e d2 hdrop.symm
    have hOm : O.getD m "" = e := by
      have h0 : (O.drop m)[0]? = some e := by rw [hdrop]; simp
      rw [List.getElem?_drop] at h0
      rw [List.getD_eq_getElem?_getD]
      simpa using congrArg (fun x => x.getD "") h0
    have hdrop2 : O.drop (m + 1) = d2 := by
      have h1 : List.drop 1 (O.drop m) = d2 := by rw [hdrop]; rfl
      rwa [List.drop_drop] at h1
    by_cases hcur : (decide (i < O.length) && lines_match e (O.getD i "")) = true
    · rw [walk_cons_match hcur]
      exact ih O (m + 1) (i + 1) hl hdrop2 (by omega)
    · have hcurF : (decide (i < O.length) && lines_match e (O.getD i "")) = false :=
        eq_false_of_ne_true hcur
      have him : i < m := by
        rcases Nat.lt_or_ge i m with h | h
        · exact h
        · exfalso
          have : i = m := by omega
          subst this
          rw [hOm] at hcur
          exact hcur (by simp [hmlen, lines_match_refl])
      by_cases ht : trimStr e = ""
      · rw [walk_cons_blank hcurF ht]
        exact ih O (m + 1) i hl hdrop2 (by omega)
      · obtain ⟨j, hj, hjge, hjle⟩ :=
          findAhead_some_le (show i + 1 ≤ m by omega) hmlen (by rw [hOm]; exact lines_match_refl e)
        rw [walk_cons_ahead hcurF ht hj]
        exact ih O (m + 1) (j + 1) hl hdrop2 (by omega)

/-- The comment walk consumes a verbatim segment of the original body by
cursor matches. -/
theorem walk_seg :
    ∀ (m : Nat) (O rest : List String) (i hl : Nat), i + m ≤ O.length →
      walkComments O ((O.drop i).take m ++ rest) i hl = walkComments O rest (i + m) hl := by
  intro m
  induction m with
  | zero => intro O rest i hl _; simp
  | succ m2 ih =>
    intro O rest i hl hle
    have hi : i < O.length := by omega
    have hdropi : O.drop i = O[i] :: O.drop (i + 1) := List.drop_eq_getElem_cons hi
    rw [hdropi, List.take_succ_cons, List.cons_append]
    have hget : O.getD i "" = O[i] := List.getD_eq_getElem O "" hi
    rw [walk_cons_match (by simp [hi, hget, lines_match_refl])]
    rw [show i + (m2 + 1) = (i + 1) + m2 by omega]
    have h2 : (O.drop (i + 1)).take m2 ++ rest = ((O.drop (i + 1)).take m2 ++ rest) := rfl
    exact ih O rest (i + 1) hl (by omega)

/-- Position facts of the comment walk: every recorded position is clamped by
the hunk-line count, bounded below by the clamped cursor, and the recorded
sequence is nondecreasing. -/
theorem walk_positions :
    ∀ (ed O : List String) (i hl : Nat),
      (∀ p ∈ (walkComments O ed i hl).map Prod.fst, p ≤ hl ∧ min i hl ≤ p) ∧
        List.Chain' (· ≤ ·) ((walkComments O ed i hl).map Prod.fst) := by
  intro ed
  induction ed with
  | nil =>
    intro O i hl
    constructor
    · intro p hp
      simp [walkComments] at hp
    · simp [walkComments]
  | cons e rest ih =>
    intro O i hl
    by_cases hcur : (decide (i < O.length) && lines_match e (O.getD i "")) = true
    · rw [walk_cons_match hcur]
      obtain ⟨h1, h2⟩ := ih O (i + 1) hl
      refine ⟨fun p hp => ⟨(h1 p hp).1, ?_⟩, h2⟩
      have := (h1 p hp).2
      omega
    · have hcurF : (decide (i < O.length) && lines_match e (O.getD i "")) = false :=
        eq_false_of_ne_true hcur
      by_cases ht : trimStr e = ""
      · rw [walk_cons_blank hcurF ht]
        exact ih O i hl
      · cases hf : findAhead O e (i + 1) with
        | some j =>
          rw [walk_cons_ahead hcurF ht hf]
          obtain ⟨h1, h2⟩ := ih O (j + 1) hl
          have hji : i + 1 ≤ j := findAhead_ge hf
          refine ⟨fun p hp => ⟨(h1 p hp).1, ?_⟩, h2⟩
          have := (h1 p hp).2
          omega
        | none =>
          by_cases htext : commentText e = ""
          · rw [walk_cons_comment_skip hcurF ht hf htext]
            exact ih O i hl
          · rw [walk_cons_comment hcurF ht hf htext]
            obtain ⟨h1, h2⟩ := ih O i hl
            constructor
            · intro p hp
              simp only [List.map_cons, List.mem_cons] at hp
              rcases hp with rfl | hp
              · exact ⟨by omega, by omega⟩
              · exact h1 p hp
            · rw [List.map_cons, List.chain'_cons']
              refine ⟨?_, h2⟩
              intro y hy
              have hymem : y ∈ (walkComments O rest i hl).map Prod.fst :=
                List.mem_of_mem_head? hy
              have := (h1 y hymem).2
              omega

/-- C10: whenever `extract_comment` returns feedback, the comment positions
are nondecreasing in order of appearance and each is at most the number of
retained hunk lines. -/
theorem comment_positions_invariant (original edited fp hh : String) (hl : List DiffLine)
    (fb : HunkFeedback)
    (h : parse_comment_result original edited fp hh hl = some fb) :
    List.Chain' (· ≤ ·) (fb.comment_positions.map Prod.fst) ∧
      ∀ p ∈ fb.comment_positions.map Prod.fst, p ≤ hl.length := by
  simp only [parse_comment_result] at h
  split at h
  · split at h
    · exact absurd h (by simp)
    · have hfb := Option.some.inj h
      subst hfb
      exact ⟨(walk_positions _ _ 0 hl.length).2,
        fun p hp => ((walk_positions _ _ 0 hl.length).1 p hp).1⟩
  · split at h
    · exact absurd h (by simp)
    · have hfb := Option.some.inj h
      subst hfb
      exact ⟨(walk_positions _ _ 0 hl.length).2,
        fun p hp => ((walk_positions _ _ 0 hl.length).1 p hp).1⟩

/-- Witness for C10: a concrete edited template yielding feedback with a
single in-range position. -/
theorem comment_positions_invariant_witness :
    List.Chain' (· ≤ ·) (witAppendedFeedback.comment_positions.map Prod.fst) ∧
      ∀ p ∈ witAppendedFeedback.comment_positions.map Prod.fst, p ≤ commentHunkLines.length :=
  comment_positions_invariant commentTemplate commentEditedAppended "src/main.rs"
    "@@ -1,3 +1,4 @@" commentHunkLines witAppendedFeedback (by decide)

/-- C7 (amended): extracting comments from an unedited template yields no
feedback for every template whose body is in range — that is, whenever the
template's first empty line (if any) is not its final line. -/
theorem extract_comment_identity (t fp hh : String) (hl : List DiffLine)
    (hcond : bodyStartOf (rustLines t) < (rustLines t).length ∨ rustLines t = []) :
    parse_comment_result t t fp hh hl = none := by
  simp only [parse_comment_result]
  rcases hcond with hlt | hnil
  · rw [if_pos hlt]
    have hwalk :
        walkComments ((rustLines t).drop (bodyStartOf (rustLines t)))
          ((rustLines t).drop (bodyStartOf (rustLines t))) 0 hl.length = [] :=
      walk_drop_nil _ _ 0 0 _ (List.drop_zero _) (le_refl 0)
    simp [hwalk]
  · simp [hnil, walkComments, bodyStartOf, firstEmptyIdx]

/-- Witness for C7: the unedited three-line comment template yields no
feedback. -/
theorem extract_comment_identity_witness :
    parse_comment_result commentTemplate commentTemplate "src/main.rs" "@@ -1,3 +1,4 @@"
      commentHunkLines = none :=
  extract_comment_identity commentTemplate "src/main.rs" "@@ -1,3 +1,4 @@" commentHunkLines
    (Or.inl (by decide))

/-- Counterexample for C7 as stated: for the template `"a\n\n"`, whose first
empty line is its last, extracting with original = edited returns feedback
(one comment `"a"` at position 0), not `None`. -/
theorem extract_comment_identity_cex :
    (parse_comment_result cexDegenerateTemplate cexDegenerateTemplate "f" "@@" []).map
        (fun fb => fb.comment_positions)
      = some [(0, "a")] := by
  decide

/-- The first empty line of `P ++ "" :: O` with `"" ∉ P` is at index
`P.length`. -/
theorem firstEmptyIdx_append (P : List String) (O : List String) (hP : "" ∉ P) :
    firstEmptyIdx (P ++ "" :: O) = some P.length := by
  induction P with
  | nil => simp [firstEmptyIdx]
  | cons x P2 ih =>
    have hx : x ≠ "" := fun hx => hP (by simp [hx])
    rw [List.cons_append, firstEmptyIdx, if_neg hx, ih (fun hm => hP (by simp [hm]))]
    rfl

/-- Dropping a prefix and one more element. -/
theorem drop_len_succ {α : Type _} (P : List α) (x : α) (O : List α) :
    (P ++ x :: O).drop (P.length + 1) = O := by
  induction P with
  | nil => rfl
  | cons y P2 ih => simp [ih]

/-- C6 (amended form of the scenario): if the edited comment template equals
the original except that body line `k` has been replaced by a single
non-blank comment line matching no template body line at or after `k`, then
extraction returns exactly one comment, anchored at position `k`. -/
theorem replaced_line_single_comment
    (original edited c fp hh : String) (P O : List String) (k : Nat) (hl : List DiffLine)
    (hP : "" ∉ P)
    (hOrig : rustLines original = P ++ "" :: O)
    (hEdit : rustLines edited = P ++ "" :: (O.take k ++ c :: O.drop (k + 1)))
    (hk : k < O.length)
    (hkhl : k ≤ hl.length)
    (htrim : trimStr c ≠ "")
    (htext : commentText c ≠ "")
    (hnm : ∀ j ∈ List.range O.length, k ≤ j → lines_match c (O.getD j "") = false) :
    parse_comment_result original edited fp hh hl =
      some { file_path := fp, hunk_header := hh, kind := .Comment,
             content := commentText c, context_lines := hl,
             comment_positions := [(k, commentText c)] } := by
  simp only [parse_comment_result]
  rw [hOrig, hEdit]
  have hbs : bodyStartOf (P ++ "" :: O) = P.length + 1 := by
    unfold bodyStartOf
    rw [firstEmptyIdx_append P O hP]
  rw [hbs]
  have hElen : (O.take k ++ c :: O.drop (k + 1)).length = O.length := by
    simp
    omega
  have hlenE : P.length + 1 < (P ++ "" :: (O.take k ++ c :: O.drop (k + 1))).length := by
    simp [hElen]
    omega
  rw [if_pos hlenE, drop_len_succ P "" (O.take k ++ c :: O.drop (k + 1)), drop_len_succ P "" O]
  have hwalk : walkComments O (O.take k ++ c :: O.drop (k + 1)) 0 hl.length
      = [(k, commentText c)] := by
    have hseg := walk_seg k O (c :: O.drop (k + 1)) 0 hl.length (by omega)
    rw [List.drop_zero] at hseg
    simp only [Nat.zero_add] at hseg
    rw [hseg]
    have hcf : (decide (k < O.length) && lines_match c (O.getD k "")) = false := by
      rw [hnm k (List.mem_range.mpr hk) (le_refl k)]
      simp
    have hfa : findAhead O c (k + 1) = none := by
      apply findAhead_none
      intro x hx
      obtain ⟨n, hn, hxe⟩ := List.mem_iff_getElem.mp hx
      have hnO : k + 1 + n < O.length := by
        have := hn
        rw [List.length_drop] at this
        omega
      have hgd : x = O.getD (k + 1 + n) "" := by
        rw [List.getD_eq_getElem O "" hnO, ← hxe, List.getElem_drop]
      rw [hgd]
      exact hnm (k + 1 + n) (List.mem_range.mpr hnO) (by omega)
    rw [walk_cons_comment hcf htrim hfa htext, Nat.min_eq_left hkhl,
      walk_drop_nil (O.drop (k + 1)) O (k + 1) k hl.length rfl (by omega)]
  rw [hwalk]
  simp [strJoin]

/-- Witness for C6: replacing the `-old` body line of the three-line
template with a comment yields exactly one comment at position 1. -/
theorem replaced_line_single_comment_witness :
    parse_comment_result commentTemplate commentEditedReplaced "src/main.rs" "@@ -1,3 +1,4 @@"
        commentHunkLines =
      some { file_path := "src/main.rs", hunk_header := "@@ -1,3 +1,4 @@",
             kind := .Comment, content := commentText "why was this removed?",
             context_lines := commentHunkLines,
             comment_positions := [(1, commentText "why was this removed?")] } :=
  replaced_line_single_comment commentTemplate commentEditedReplaced "why was this removed?"
    "src/main.rs" "@@ -1,3 +1,4 @@"
    ["# Add your comments anywhere in this file.",
      "# Any new lines you add will be captured as comments.", "# @@ -1,3 +1,4 @@"]
    [" line1", "-old", "+new"] 1 commentHunkLines
    (by decide) (by decide) (by decide) (by decide) (by decide) (by decide) (by decide)
    (by decide)

/-- The structural prefix test is reflexive. -/
theorem isPfx_refl_chars : ∀ (l : List Char), isPfx l l = true := by
  intro l
  induction l with
  | nil => rfl
  | cons c cs ih => simp [isPfx, ih]

/-- A prefix of a list is a prefix of any right extension. -/
theorem isPfx_append_chars :
    ∀ (p l r : List Char), isPfx p l = true → isPfx p (l ++ r) = true := by
  intro p
  induction p with
  | nil => intro l r _; rfl
  | cons a as ih =>
    intro l r h
    cases l with
    | nil => exact absurd h (by simp [isPfx])
    | cons b bs =>
      simp [isPfx] at h ⊢
      exact ⟨h.1, ih bs r h.2⟩

/-- The empty pattern occurs in every list. -/
theorem containsSeg_nil : ∀ (l : List Char), containsSeg [] l = true := by
  intro l
  cases l with
  | nil => rfl
  | cons c cs => simp [containsSeg, isPfx]

/-- Containment is preserved by prepending. -/
theorem containsSeg_append_left :
    ∀ (a : List Char) (s pat : List Char), containsSeg pat s = true →
      containsSeg pat (a ++ s) = true := by
  intro a
  induction a with
  | nil => intro s pat h; exact h
  | cons c cs ih =>
    intro s pat h
    rw [List.cons_append, containsSeg]
    simp [ih s pat h]

/-- Containment is preserved by appending. -/
theorem containsSeg_append_right :
    ∀ (s r pat : List Char), containsSeg pat s = true → containsSeg pat (s ++ r) = true := by
  intro s
  induction s with
  | nil =>
    intro r pat h
    simp [containsSeg] at h
    subst h
    exact containsSeg_nil r
  | cons c cs ih =>
    intro r pat h
    rw [containsSeg] at h
    rcases Bool.or_eq_true_iff.mp h with hp | hc
    · rw [List.cons_append, containsSeg]
      have := isPfx_append_chars pat (c :: cs) r hp
      rw [List.cons_append] at this
      simp [this]
    · rw [List.cons_append, containsSeg]
      simp [ih r pat hc]

/-- A string occurs in itself. -/
theorem strContains_self (s : String) : strContains s s = true := by
  unfold strContains
  cases hd : s.data with
  | nil => rfl
  | cons c cs => simp [containsSeg, isPfx_refl_chars]

/-- Containment survives prepending a string. -/
theorem strContains_append_left (a s pat : String) (h : strContains s pat = true) :
    strContains (a ++ s) pat = true := by
  unfold strContains at h ⊢
  rw [String.data_append]
  exact containsSeg_append_left a.data s.data pat.data h

/-- Containment survives appending a string. -/
theorem strContains_append_right (s b pat : String) (h : strContains s pat = true) :
    strContains (s ++ b) pat = true := by
  unfold strContains at h ⊢
  rw [String.data_append]
  exact containsSeg_append_right s.data b.data pat.data h

/-- C9 (amended): formatting a single Comment feedback that carries two
comments whose ±2-line context windows do not overlap produces output
containing the `"  ..."` separator line between the two rendered regions. -/
theorem comment_separator (fb : HunkFeedback) (p1 p2 : Nat) (t1 t2 : String)
    (hkind : fb.kind = FeedbackKind.Comment)
    (hpos : fb.comment_positions = [(p1, t1), (p2, t2)])
    (hsep : min (p1 + 2) fb.context_lines.length < p2 - 2) :
    strContains (format_feedback [fb] 2) "  ...\n" = true := by
  unfold format_feedback
  rw [if_neg (by simp)]
  have hkeys : sortedKeys [fb] = [fb.file_path] := rfl
  rw [hkeys]
  simp only [List.map_cons, List.map_nil, strConcat]
  apply strContains_append_right
  apply strContains_append_left
  rw [List.filter_cons_of_pos (by simp), List.filter_nil]
  simp only [List.map_cons, List.map_nil, strConcat]
  apply strContains_append_right
  unfold formatOneFeedback
  rw [hkind]
  apply strContains_append_left
  unfold format_comment_with_context
  rw [hpos]
  rw [if_neg (by simp)]
  have hbr : buildRegions [(p1, t1), (p2, t2)] 2 fb.context_lines.length
      = [⟨p1 - 2, min (p1 + 2) fb.context_lines.length, [(p1, t1)]⟩,
         ⟨p2 - 2, min (p2 + 2) fb.context_lines.length, [(p2, t2)]⟩] := by
    unfold buildRegions
    simp only [List.foldl_cons, List.foldl_nil, List.getLast?_nil, List.getLast?_singleton]
    rw [if_neg (by omega)]
    rfl
  rw [hbr]
  unfold renderRegions
  apply strContains_append_right
  apply strContains_append_left
  exact strContains_self "  ...\n"

/-- Witness for C9: the two-comment feedback at positions 3 and 8 with
context 2 renders with a separator. -/
theorem comment_separator_witness :
    strContains (format_feedback [witTwoCommentFeedback] 2) "  ...\n" = true :=
  comment_separator witTwoCommentFeedback 3 8 "First comment" "Second comment" rfl rfl
    (by decide)

/-- Counterexample for C9 as stated: two separate Comment feedbacks on the
same file, at positions 1 and 8 (±2-line windows do not overlap since
1 + 2 < 8 − 2), are rendered each under its own hunk header with no
`"  ..."` separator anywhere in the output. -/
theorem comment_separator_cex :
    min (1 + 2) sepContextLines.length < 8 - 2 ∧
      strContains (format_feedback [cexSepFeedbackA, cexSepFeedbackB] 2) "  ..." = false := by
  decide

/-- Step equations of the region finder at a Context line. -/
theorem findRegionsGo_cons_ctx (l : DiffLine) (rest : List DiffLine) (i : Nat)
    (h : l.kind = LineKind.Context) :
    findRegionsGo (l :: rest) i none = findRegionsGo rest (i + 1) none ∧
      ∀ rs, findRegionsGo (l :: rest) i (some rs)
        = (rs, i - 1) :: findRegionsGo rest (i + 1) none := by
  constructor
  · simp [findRegionsGo, h]
  · intro rs; simp [findRegionsGo, h]

/-- Step equations of the region finder at a change line. -/
theorem findRegionsGo_cons_chg (l : DiffLine) (rest : List DiffLine) (i : Nat)
    (h : l.kind ≠ LineKind.Context) :
    findRegionsGo (l :: rest) i none = findRegionsGo rest (i + 1) (some i) ∧
      ∀ rs, findRegionsGo (l :: rest) i (some rs) = findRegionsGo rest (i + 1) (some rs) := by
  cases hk : l.kind
  · exact absurd hk h
  · exact ⟨by simp [findRegionsGo, hk], fun rs => by simp [findRegionsGo, hk]⟩
  · exact ⟨by simp [findRegionsGo, hk], fun rs => by simp [findRegionsGo, hk]⟩

/-- The head of a line list is a change line iff index 0 is a change index. -/
theorem changeAt_zero (l : DiffLine) (rest : List DiffLine) :
    changeAt (l :: rest) 0 ↔ l.kind ≠ LineKind.Context := by
  unfold changeAt
  simp

/-- Change indices shift across a cons. -/
theorem changeAt_succ (l : DiffLine) (rest : List DiffLine) (k : Nat) :
    changeAt (l :: rest) (k + 1) ↔ changeAt rest k := by
  unfold changeAt
  simp

/-- Structure of the regions computed by the finder loop: in the `none` state
all regions lie in `[i, i + lines.length)`, are well-formed, pairwise
separated by at least one line, and cover exactly the change indices; in the
`some rs` state (with `rs < i`) the result additionally starts with the open
region `(rs, e)` for some `e ≥ i − 1`. -/
theorem findRegionsGo_spec :
    ∀ (lines : List DiffLine) (i : Nat),
      ((∀ r ∈ findRegionsGo lines i none, i ≤ r.1 ∧ r.1 ≤ r.2 ∧ r.2 < i + lines.length) ∧
        List.Pairwise (fun r1 r2 => r1.2 + 2 ≤ r2.1) (findRegionsGo lines i none) ∧
        (∀ k, k < lines.length →
          (changeAt lines k ↔ ∃ r ∈ findRegionsGo lines i none, r.1 ≤ i + k ∧ i + k ≤ r.2)))
      ∧
      (∀ rs, rs < i →
        ∃ e Rt, findRegionsGo lines i (some rs) = (rs, e) :: Rt ∧
          i - 1 ≤ e ∧ e < i + lines.length ∧
          (∀ r ∈ Rt, i ≤ r.1 ∧ r.1 ≤ r.2 ∧ r.2 < i + lines.length) ∧
          List.Pairwise (fun r1 r2 => r1.2 + 2 ≤ r2.1) ((rs, e) :: Rt) ∧
          (∀ k, k < lines.length →
            (changeAt lines k ↔ ∃ r ∈ (rs, e) :: Rt, r.1 ≤ i + k ∧ i + k ≤ r.2))) := by
  intro lines
  induction lines with
  | nil =>
    intro i
    constructor
    · refine ⟨?_, ?_, ?_⟩
      · intro r hr; simp [findRegionsGo] at hr
      · simp [findRegionsGo]
      · intro k hk; simp at hk
    · intro rs hrs
      refine ⟨i - 1, [], rfl, le_refl _, by simp; omega, ?_, ?_, ?_⟩
      · intro r hr; simp at hr
      · simp
      · intro k hk; simp at hk
  | cons l rest ih =>
    intro i
    obtain ⟨ihn, ihs⟩ := ih (i + 1)
    by_cases hC : l.kind = LineKind.Context
    · obtain ⟨heqn, heqs⟩ := findRegionsGo_cons_ctx l rest i hC
      constructor
      · rw [heqn]
        obtain ⟨hb, hpw, hcov⟩ := ihn
        refine ⟨?_, hpw, ?_⟩
        · intro r hr
          have h1 := hb r hr
          exact ⟨by omega, h1.2.1, by simp only [List.length_cons]; omega⟩
        · intro k hk
          cases k with
          | zero =>
            rw [changeAt_zero]
            constructor
            · intro hch; exact absurd hC hch
            · rintro ⟨r, hr, h1, h2⟩
              have h3 := hb r hr
              omega
          | succ k2 =>
            have hk2 : k2 < rest.length := by
              simp only [List.length_cons] at hk; omega
            rw [changeAt_succ, hcov k2 hk2,
              show i + (k2 + 1) = (i + 1) + k2 by omega]
      · intro rs hrs
        rw [heqs rs]
        obtain ⟨hb, hpw, hcov⟩ := ihn
        refine ⟨i - 1, findRegionsGo rest (i + 1) none, rfl, le_refl _,
          by simp only [List.length_cons]; omega, ?_, ?_, ?_⟩
        · intro r hr
          have h1 := hb r hr
          exact ⟨by omega, h1.2.1, by simp only [List.length_cons]; omega⟩
        · refine List.Pairwise.cons ?_ hpw
          intro r hr
          have h1 := hb r hr
          simp only []
          omega
        · intro k hk
          cases k with
          | zero =>
            rw [changeAt_zero]
            constructor
            · intro hch; exact absurd hC hch
            · rintro ⟨r, hr, h1, h2⟩
              rcases List.mem_cons.mp hr with rfl | hr2
              · simp only [] at h1 h2; omega
              · have h3 := hb r hr2
                omega
          | succ k2 =>
            have hk2 : k2 < rest.length := by
              simp only [List.length_cons] at hk; omega
            rw [changeAt_succ, hcov k2 hk2]
            constructor
            · rintro ⟨r, hr, h1, h2⟩
              exact ⟨r, List.mem_cons_of_mem _ hr, by omega, by omega⟩
            · rintro ⟨r, hr, h1, h2⟩
              rcases List.mem_cons.mp hr with rfl | hr2
              · simp only [] at h1 h2; omega
              · exact ⟨r, hr2, by omega, by omega⟩
    · obtain ⟨heqn, heqs⟩ := findRegionsGo_cons_chg l rest i hC
      constructor
      · rw [heqn]
        obtain ⟨e, Rt, hR, hie, helen, hbt, hpw, hcov⟩ := ihs i (by omega)
        rw [hR]
        have hie2 : i ≤ e := by omega
        refine ⟨?_, hpw, ?_⟩
        · intro r hr
          rcases List.mem_cons.mp hr with rfl | hr2
          · exact ⟨le_refl i, hie2, by simp only [List.length_cons]; omega⟩
          · have h1 := hbt r hr2
            exact ⟨by omega, h1.2.1, by simp only [List.length_cons]; omega⟩
        · intro k hk
          cases k with
          | zero =>
            rw [changeAt_zero]
            constructor
            · intro _
              exact ⟨(i, e), List.mem_cons_self _ _, by simp only []; omega,
                by simp only []; omega⟩
            · intro _; exact hC
          | succ k2 =>
            have hk2 : k2 < rest.length := by
              simp only [List.length_cons] at hk; omega
            rw [changeAt_succ, hcov k2 hk2,
              show i + (k2 + 1) = (i + 1) + k2 by omega]
      · intro rs hrs
        rw [heqs rs]
        obtain ⟨e, Rt, hR, hie, helen, hbt, hpw, hcov⟩ := ihs rs (by omega)
        have hie2 : i ≤ e := by omega
        refine ⟨e, Rt, hR, by omega, by simp only [List.length_cons]; omega, ?_, hpw, ?_⟩
        · intro r hr
          have h1 := hbt r hr
          exact ⟨by omega, h1.2.1, by simp only [List.length_cons]; omega⟩
        · intro k hk
          cases k with
          | zero =>
            rw [changeAt_zero]
            constructor
            · intro _
              exact ⟨(rs, e), List.mem_cons_self _ _, by simp only []; omega,
                by simp only []; omega⟩
            · intro _; exact hC
          | succ k2 =>
            have hk2 : k2 < rest.length := by
              simp only [List.length_cons] at hk; omega
            rw [changeAt_succ, hcov k2 hk2,
              show i + (k2 + 1) = (i + 1) + k2 by omega]

/-- The regions of a hunk's lines are well-formed, separated, and cover
exactly the change lines. -/
theorem findRegions_spec (lines : List DiffLine) :
    (∀ r ∈ findRegions lines, r.1 ≤ r.2 ∧ r.2 < lines.length) ∧
      List.Pairwise (fun r1 r2 => r1.2 + 2 ≤ r2.1) (findRegions lines) ∧
      (∀ k, k < lines.length →
        (changeAt lines k ↔ ∃ r ∈ findRegions lines, r.1 ≤ k ∧ k ≤ r.2)) := by
  obtain ⟨⟨hb, hpw, hcov⟩, _⟩ := findRegionsGo_spec lines 0
  refine ⟨fun r hr => ⟨(hb r hr).2.1, by have := (hb r hr).2.2; omega⟩, hpw, ?_⟩
  intro k hk
  rw [hcov k hk]
  unfold findRegions
  simp

/-- Indexed well-formedness of a region. -/
theorem findRegions_getD (lines : List DiffLine) (ri : Nat)
    (h : ri < (findRegions lines).length) :
    ((findRegions lines).getD ri (0, 0)).1 ≤ ((findRegions lines).getD ri (0, 0)).2 ∧
      ((findRegions lines).getD ri (0, 0)).2 < lines.length := by
  rw [List.getD_eq_getElem _ _ h]
  exact (findRegions_spec lines).1 _ (List.getElem_mem h)

/-- Adjacent regions are separated by at least one line. -/
theorem findRegions_adjacent (lines : List DiffLine) (ri : Nat)
    (h : ri + 1 < (findRegions lines).length) :
    ((findRegions lines).getD ri (0, 0)).2 + 2
      ≤ ((findRegions lines).getD (ri + 1) (0, 0)).1 := by
  rw [List.getD_eq_getElem _ _ (by omega), List.getD_eq_getElem _ _ h]
  exact List.pairwise_iff_getElem.mp (findRegions_spec lines).2.1 ri (ri + 1) (by omega) h
    (by omega)

/-- Bounds facts for a sub-hunk's clamped slice: it contains its region, each
context window is at most 3 lines, it stays inside the line list, and it
never intrudes into the neighbouring regions. -/
theorem subBounds_facts (lines : List DiffLine) (ri : Nat)
    (hri : ri < (findRegions lines).length) :
    (subBounds lines.length (findRegions lines) ri).1
        ≤ ((findRegions lines).getD ri (0, 0)).1 ∧
      ((findRegions lines).getD ri (0, 0)).2
        ≤ (subBounds lines.length (findRegions lines) ri).2 ∧
      ((findRegions lines).getD ri (0, 0)).1
          - (subBounds lines.length (findRegions lines) ri).1 ≤ 3 ∧
      (subBounds lines.length (findRegions lines) ri).2
          - ((findRegions lines).getD ri (0, 0)).2 ≤ 3 ∧
      (subBounds lines.length (findRegions lines) ri).2 < lines.length ∧
      (0 < ri →
        ((findRegions lines).getD (ri - 1) (0, 0)).2
          < (subBounds lines.length (findRegions lines) ri).1) ∧
      (ri + 1 < (findRegions lines).length →
        (subBounds lines.length (findRegions lines) ri).2
          < ((findRegions lines).getD (ri + 1) (0, 0)).1) := by
  obtain ⟨hr1, hr2⟩ := findRegions_getD lines ri hri
  have hprevwf : 0 < ri →
      ((findRegions lines).getD (ri - 1) (0, 0)).1
          ≤ ((findRegions lines).getD (ri - 1) (0, 0)).2 ∧
        ((findRegions lines).getD (ri - 1) (0, 0)).2 < lines.length :=
    fun h => findRegions_getD lines (ri - 1) (by omega)
  have hprevadj : 0 < ri →
      ((findRegions lines).getD (ri - 1) (0, 0)).2 + 2
        ≤ ((findRegions lines).getD ri (0, 0)).1 := by
    intro h
    have := findRegions_adjacent lines (ri - 1) (by omega)
    rwa [show ri - 1 + 1 = ri by omega] at this
  have hnextadj : ri + 1 < (findRegions lines).length →
      ((findRegions lines).getD ri (0, 0)).2 + 2
        ≤ ((findRegions lines).getD (ri + 1) (0, 0)).1 :=
    fun h => findRegions_adjacent lines ri h
  simp only [subBounds, contextWindow]
  split
  · split
    · refine ⟨?_, ?_, ?_, ?_, ?_, ?_, ?_⟩ <;> omega
    · refine ⟨?_, ?_, ?_, ?_, ?_, ?_, ?_⟩ <;> omega
  · split
    · refine ⟨?_, ?_, ?_, ?_, ?_, ?_, ?_⟩ <;> omega
    · refine ⟨?_, ?_, ?_, ?_, ?_, ?_, ?_⟩ <;> omega

/-- Adjacent sub-hunk slices are disjoint and in order. -/
theorem subBounds_disjoint (lines : List DiffLine) (ri : Nat)
    (h : ri + 1 < (findRegions lines).length) :
    (subBounds lines.length (findRegions lines) ri).2
      < (subBounds lines.length (findRegions lines) (ri + 1)).1 := by
  obtain ⟨hr1, hr2⟩ := findRegions_getD lines ri (by omega)
  obtain ⟨hs1, hs2⟩ := findRegions_getD lines (ri + 1) h
  have hadj := findRegions_adjacent lines ri h
  simp only [subBounds, contextWindow, Nat.add_sub_cancel]
  rw [if_pos h, if_pos (by omega : 0 < ri + 1)]
  omega

/-- Sub-hunk slices at any pair of indices in order are disjoint. -/
theorem subBounds_lt_of_lt (lines : List DiffLine) :
    ∀ (ri rj : Nat), rj < (findRegions lines).length → ri < rj →
      (subBounds lines.length (findRegions lines) ri).2
        < (subBounds lines.length (findRegions lines) rj).1 := by
  intro ri rj
  induction rj with
  | zero => intro _ h; omega
  | succ rj2 ih =>
    intro hrj hlt
    rcases Nat.lt_succ_iff_lt_or_eq.mp hlt with h | h
    · have h1 := ih (by omega) h
      obtain ⟨hb1, hb2, _, _, _, _, _⟩ := subBounds_facts lines rj2 (by omega)
      obtain ⟨hw1, hw2⟩ := findRegions_getD lines rj2 (by omega)
      have h3 := subBounds_disjoint lines rj2 hrj
      omega
    · subst h
      exact subBounds_disjoint lines ri hrj

/-- A suffix of the line list splits as a slice followed by a later suffix. -/
theorem drop_eq_slice_append (lines : List DiffLine) (b a : Nat) (hba : b ≤ a + 1) :
    lines.drop b = sliceLines lines b a ++ lines.drop (a + 1) := by
  unfold sliceLines
  conv_lhs => rw [← List.take_append_drop (a + 1 - b) (lines.drop b)]
  congr 1
  rw [List.drop_drop, show b + (a + 1 - b) = a + 1 from by omega]

/-- The concatenation of in-order disjoint slices is a sublist of the suffix
they start in. -/
theorem slices_sublist :
    ∀ (B : List (Nat × Nat)) (lines : List DiffLine) (k : Nat),
      (∀ p ∈ B, k ≤ p.1 ∧ p.1 ≤ p.2) →
      List.Pairwise (fun p q => p.2 < q.1) B →
      ((B.map (fun p => sliceLines lines p.1 p.2)).flatten).Sublist (lines.drop k) := by
  intro B
  induction B with
  | nil => intro lines k _ _; simp
  | cons p B2 ih =>
    intro lines k hb hpw
    obtain ⟨hk1, hk2⟩ := hb p (by simp)
    obtain ⟨hhead, htail⟩ := List.pairwise_cons.mp hpw
    simp only [List.map_cons, List.flatten_cons]
    have hrec : ((B2.map (fun q => sliceLines lines q.1 q.2)).flatten).Sublist
        (lines.drop (p.2 + 1)) := by
      refine ih lines (p.2 + 1) (fun q hq => ⟨?_, (hb q (List.mem_cons_of_mem _ hq)).2⟩) htail
      have := hhead q hq
      omega
    have hstep : (sliceLines lines p.1 p.2
        ++ (B2.map (fun q => sliceLines lines q.1 q.2)).flatten).Sublist (lines.drop p.1) := by
      rw [drop_eq_slice_append lines p.1 p.2 (by omega)]
      exact hrec.append_left _
    have hmono : (lines.drop p.1).Sublist (lines.drop k) := by
      rw [show lines.drop p.1 = (lines.drop k).drop (p.1 - k) by
        rw [List.drop_drop]; congr 1; omega]
      exact List.drop_sublist _ _
    exact hstep.trans hmono

/-- Elements of a `take` come from indexed positions below the cut. -/
theorem mem_take_index {α : Type _} (l : List α) (m : Nat) (x : α) (hx : x ∈ l.take m) :
    ∃ n, n < m ∧ n < l.length ∧ l[n]? = some x := by
  obtain ⟨n, hn, hxe⟩ := List.mem_iff_getElem.mp hx
  have hlen : n < m ∧ n < l.length := by
    have := hn
    rw [List.length_take] at this
    omega
  refine ⟨n, hlen.1, hlen.2, ?_⟩
  rw [List.getElem?_eq_getElem hlen.2, ← hxe, List.getElem_take]

/-- A suffix of the lines none of whose indices is a change index has no
change lines. -/
theorem filter_drop_nil (lines : List DiffLine) (k : Nat)
    (h : ∀ j, k ≤ j → ¬ changeAt lines j) :
    (lines.drop k).filter changeP = [] := by
  rw [List.filter_eq_nil_iff]
  intro x hx
  obtain ⟨n, hn, hxe⟩ := List.mem_iff_getElem.mp hx
  intro hcp
  apply h (k + n) (by omega)
  have hklen : k + n < lines.length := by
    have := hn
    rw [List.length_drop] at this
    omega
  refine ⟨x, ?_, by simpa [changeP] using hcp⟩
  rw [List.getElem?_eq_getElem hklen, ← hxe, List.getElem_drop]

/-- A `take` of a suffix of the lines none of whose indices is a change index
has no change lines. -/
theorem filter_take_nil (lines : List DiffLine) (k m : Nat)
    (h : ∀ j, k ≤ j → j < k + m → ¬ changeAt lines j) :
    ((lines.drop k).take m).filter changeP = [] := by
  rw [List.filter_eq_nil_iff]
  intro x hx
  obtain ⟨n, hnm, hnlen, hxe⟩ := mem_take_index (lines.drop k) m x hx
  intro hcp
  apply h (k + n) (by omega) (by omega)
  rw [List.getElem?_drop] at hxe
  exact ⟨x, hxe, by simpa [changeP] using hcp⟩

/-- Filtering the change lines out of the concatenated slices gives the same
result as filtering the underlying suffix, provided every change index at or
past the start lies inside some slice's region. -/
theorem slices_filter :
    ∀ (Z : List ((Nat × Nat) × Nat × Nat)) (lines : List DiffLine) (k : Nat),
      (∀ z ∈ Z, k ≤ z.2.1 ∧ z.2.1 ≤ z.1.1 ∧ z.1.1 ≤ z.1.2 ∧ z.1.2 ≤ z.2.2) →
      List.Pairwise (fun z1 z2 => z1.2.2 < z2.2.1) Z →
      (∀ j, k ≤ j → changeAt lines j → ∃ z ∈ Z, z.1.1 ≤ j ∧ j ≤ z.1.2) →
      ((Z.map (fun z => sliceLines lines z.2.1 z.2.2)).flatten).filter changeP
        = (lines.drop k).filter changeP := by
  intro Z
  induction Z with
  | nil =>
    intro lines k _ _ hcov
    rw [List.map_nil, List.flatten_nil, List.filter_nil]
    rw [filter_drop_nil lines k]
    intro j hj hch
    obtain ⟨z, hz, _⟩ := hcov j hj hch
    simp at hz
  | cons z Z2 ih =>
    intro lines k hb hpw hcov
    obtain ⟨hz1, hz2, hz3, hz4⟩ := hb z (by simp)
    obtain ⟨hhead, htail⟩ := List.pairwise_cons.mp hpw
    have hdec : lines.drop k
        = (lines.drop k).take (z.2.1 - k) ++ (sliceLines lines z.2.1 z.2.2
            ++ lines.drop (z.2.2 + 1)) := by
      rw [← drop_eq_slice_append lines z.2.1 z.2.2 (by omega)]
      rw [show lines.drop z.2.1 = (lines.drop k).drop (z.2.1 - k) from by
        rw [List.drop_drop, show k + (z.2.1 - k) = z.2.1 from by omega]]
      exact (List.take_append_drop _ _).symm
    rw [List.map_cons, List.flatten_cons, List.filter_append, hdec, List.filter_append,
      List.filter_append]
    have hpre : ((lines.drop k).take (z.2.1 - k)).filter changeP = [] := by
      apply filter_take_nil
      intro j hj1 hj2 hch
      obtain ⟨z2, hz2mem, hc1, hc2⟩ := hcov j hj1 hch
      rcases List.mem_cons.mp hz2mem with rfl | hmem
      · omega
      · have hq := hhead z2 hmem
        have := (hb z2 (List.mem_cons_of_mem _ hmem)).2.1
        omega
    have hrest : ((Z2.map (fun z2 => sliceLines lines z2.2.1 z2.2.2)).flatten).filter changeP
        = (lines.drop (z.2.2 + 1)).filter changeP := by
      refine ih lines (z.2.2 + 1)
        (fun q hq => ⟨by have := hhead q hq; omega,
          (hb q (List.mem_cons_of_mem _ hq)).2⟩) htail ?_
      intro j hj hch
      obtain ⟨z2, hz2mem, hc1, hc2⟩ := hcov j (by omega) hch
      rcases List.mem_cons.mp hz2mem with rfl | hmem
      · omega
      · exact ⟨z2, hmem, hc1, hc2⟩
    rw [hpre, hrest]
    simp

/-- Mapping the slice of the second component over a zip of equal-length
lists equals mapping it over the second list. -/
theorem zip_map_slice (lines : List DiffLine) :
    ∀ (A B : List (Nat × Nat)), A.length = B.length →
      (A.zip B).map (fun z => sliceLines lines z.2.1 z.2.2)
        = B.map (fun p => sliceLines lines p.1 p.2) := by
  intro A
  induction A with
  | nil =>
    intro B h
    cases B with
    | nil => rfl
    | cons b bs => simp at h
  | cons a as ih =>
    intro B h
    cases B with
    | nil => simp at h
    | cons b bs =>
      simp only [List.zip_cons_cons, List.map_cons]
      rw [ih bs (by simpa using h)]

/-- The lines of a sub-hunk are the clamped slice of the parent's lines. -/
theorem mkSubHunk_lines (hunk : Hunk) (regions : List (Nat × Nat)) (ri : Nat) :
    (mkSubHunk hunk regions ri).lines
      = sliceLines hunk.lines (subBounds hunk.lines.length regions ri).1
          (subBounds hunk.lines.length regions ri).2 := rfl

/-- In the multi-region case the split is the range-map of sub-hunks. -/
theorem splitHunk_multi (hunk : Hunk) (h : 1 < (findRegions hunk.lines).length) :
    splitHunk hunk = (List.range (findRegions hunk.lines).length).map
      (fun ri => mkSubHunk hunk (findRegions hunk.lines) ri) := by
  unfold splitHunk
  rw [if_neg (by omega)]

/-- C1 (amended): for a hunk with at most one region, `split` returns a
singleton equal to the input; in general the sub-hunks' Lines, concatenated
in order, form a sublist of the input hunk's Lines that retains every
Added and Removed line (Context lines between or around regions may be
omitted when the hunk is actually split). -/
theorem split_hunk_slices (hunk : Hunk) :
    ((findRegions hunk.lines).length ≤ 1 → splitHunk hunk = [hunk]) ∧
      ((splitHunk hunk).map (fun h2 => h2.lines)).flatten.Sublist hunk.lines ∧
      ((splitHunk hunk).map (fun h2 => h2.lines)).flatten.filter changeP
        = hunk.lines.filter changeP := by
  by_cases hle : (findRegions hunk.lines).length ≤ 1
  · have hsp : splitHunk hunk = [hunk] := by
      unfold splitHunk
      rw [if_pos hle]
    rw [hsp]
    exact ⟨fun _ => rfl, by simp, by simp⟩
  · have hlt : 1 < (findRegions hunk.lines).length := by omega
    have hsp := splitHunk_multi hunk hlt
    have hmap : (splitHunk hunk).map (fun h2 => h2.lines)
        = ((List.range (findRegions hunk.lines).length).map
            (fun ri => subBounds hunk.lines.length (findRegions hunk.lines) ri)).map
          (fun p => sliceLines hunk.lines p.1 p.2) := by
      rw [hsp, List.map_map, List.map_map]
      apply List.map_congr_left
      intro ri _
      rfl
    have hBmem : ∀ p ∈ (List.range (findRegions hunk.lines).length).map
        (fun ri => subBounds hunk.lines.length (findRegions hunk.lines) ri),
        0 ≤ p.1 ∧ p.1 ≤ p.2 := by
      intro p hp
      obtain ⟨ri, hri, rfl⟩ := List.mem_map.mp hp
      have hri2 : ri < (findRegions hunk.lines).length := List.mem_range.mp hri
      obtain ⟨hb1, hb2, _, _, _, _, _⟩ := subBounds_facts hunk.lines ri hri2
      obtain ⟨hw1, _⟩ := findRegions_getD hunk.lines ri hri2
      exact ⟨Nat.zero_le _, by omega⟩
    have hBpw : List.Pairwise (fun p q => p.2 < q.1)
        ((List.range (findRegions hunk.lines).length).map
          (fun ri => subBounds hunk.lines.length (findRegions hunk.lines) ri)) := by
      rw [List.pairwise_iff_getElem]
      intro i j hi hj hij
      simp only [List.getElem_map, List.getElem_range]
      have hjlen : j < (findRegions hunk.lines).length := by
        simpa using hj
      exact subBounds_lt_of_lt hunk.lines i j hjlen hij
    refine ⟨fun hcontra => absurd hcontra (by omega), ?_, ?_⟩
    · have hsub := slices_sublist
        ((List.range (findRegions hunk.lines).length).map
          (fun ri => subBounds hunk.lines.length (findRegions hunk.lines) ri))
        hunk.lines 0 hBmem hBpw
      rw [List.drop_zero] at hsub
      rw [hmap]
      exact hsub
    · have hZmem : ∀ z ∈ (findRegions hunk.lines).zip
          ((List.range (findRegions hunk.lines).length).map
            (fun ri => subBounds hunk.lines.length (findRegions hunk.lines) ri)),
          0 ≤ z.2.1 ∧ z.2.1 ≤ z.1.1 ∧ z.1.1 ≤ z.1.2 ∧ z.1.2 ≤ z.2.2 := by
        intro z hz
        obtain ⟨m, hm, hze⟩ := List.mem_iff_getElem.mp hz
        have hmlen : m < (findRegions hunk.lines).length := by
          have := hm
          simp [List.length_zip] at this
          omega
        rw [List.getElem_zip] at hze
        obtain ⟨hb1, hb2, _, _, _, _, _⟩ := subBounds_facts hunk.lines m hmlen
        obtain ⟨hw1, _⟩ := findRegions_getD hunk.lines m hmlen
        rw [List.getD_eq_getElem _ _ hmlen] at hb1 hb2 hw1
        rw [← hze]
        simp only [List.getElem_map, List.getElem_range]
        exact ⟨Nat.zero_le _, by simpa using hb1, by simpa using hw1, by simpa using hb2⟩
      have hZpw : List.Pairwise (fun z1 z2 => z1.2.2 < z2.2.1)
          ((findRegions hunk.lines).zip
            ((List.range (findRegions hunk.lines).length).map
              (fun ri => subBounds hunk.lines.length (findRegions hunk.lines) ri))) := by
        rw [List.pairwise_iff_getElem]
        intro i j hi hj hij
        have hjlen : j < (findRegions hunk.lines).length := by
          have := hj
          simp [List.length_zip] at this
          omega
        rw [List.getElem_zip, List.getElem_zip]
        simp only [List.getElem_map, List.getElem_range]
        exact subBounds_lt_of_lt hunk.lines i j hjlen hij
      have hZcov : ∀ j, 0 ≤ j → changeAt hunk.lines j →
          ∃ z ∈ (findRegions hunk.lines).zip
            ((List.range (findRegions hunk.lines).length).map
              (fun ri => subBounds hunk.lines.length (findRegions hunk.lines) ri)),
            z.1.1 ≤ j ∧ j ≤ z.1.2 := by
        intro j _ hch
        have hjlen : j < hunk.lines.length := by
          obtain ⟨l2, hl2, _⟩ := hch
          exact (List.getElem?_eq_some.mp hl2).1
        obtain ⟨r, hr, hc1, hc2⟩ := ((findRegions_spec hunk.lines).2.2 j hjlen).mp hch
        obtain ⟨m, hm, hre⟩ := List.mem_iff_getElem.mp hr
        have hmzip : m < ((findRegions hunk.lines).zip
            ((List.range (findRegions hunk.lines).length).map
              (fun ri => subBounds hunk.lines.length (findRegions hunk.lines) ri))).length := by
          rw [List.length_zip]
          simp
          omega
        refine ⟨_, List.getElem_mem hmzip, ?_⟩
        rw [List.getElem_zip, hre]
        exact ⟨hc1, hc2⟩
      have hfil := slices_filter
        ((findRegions hunk.lines).zip
          ((List.range (findRegions hunk.lines).length).map
            (fun ri => subBounds hunk.lines.length (findRegions hunk.lines) ri)))
        hunk.lines 0 hZmem hZpw hZcov
      rw [zip_map_slice hunk.lines _ _ (by simp), List.drop_zero] at hfil
      rw [hmap]
      exact hfil

/-- Witness for C1: a single-region hunk is returned unchanged as a
singleton. -/
theorem split_hunk_slices_witness :
    splitHunk witSingleRegionHunk = [witSingleRegionHunk] :=
  (split_hunk_slices witSingleRegionHunk).1 (by decide)

/-- Counterexample for C1 as stated: the hunk `[Added, Context, Added]` has
two regions (hence at least one), yet the concatenated Lines of its split do
not reproduce the input — the separating Context line is dropped. -/
theorem split_hunk_roundtrip_cex :
    1 ≤ (findRegions cexSplitHunk.lines).length ∧
      ((splitHunk cexSplitHunk).map (fun h2 => h2.lines)).flatten ≠ cexSplitHunk.lines := by
  decide

/-- Pairwise separation of regions in `getD` form. -/
theorem findRegions_pairwise_getD (lines : List DiffLine) (m1 m2 : Nat)
    (h2 : m2 < (findRegions lines).length) (h12 : m1 < m2) :
    ((findRegions lines).getD m1 (0, 0)).2 + 2 ≤ ((findRegions lines).getD m2 (0, 0)).1 := by
  rw [List.getD_eq_getElem _ _ (by omega), List.getD_eq_getElem _ _ h2]
  exact List.pairwise_iff_getElem.mp (findRegions_spec lines).2.1 m1 m2 (by omega) h2 h12

/-- Region membership gives a `getD`-indexed region. -/
theorem findRegions_mem_index (lines : List DiffLine) (r : Nat × Nat)
    (hr : r ∈ findRegions lines) :
    ∃ m, m < (findRegions lines).length ∧ (findRegions lines).getD m (0, 0) = r := by
  obtain ⟨m, hm, hre⟩ := List.mem_iff_getElem.mp hr
  exact ⟨m, hm, by rw [List.getD_eq_getElem _ _ hm]; exact hre⟩

/-- C8 (amended): when `split` actually splits (two or more regions), the
sub-hunk for region `ri` is the slice of the parent's lines given by
`subBounds`; that slice contains its whole region, takes at most 3 Context
lines before and after it (the windows hold no change lines), and its
clamped bounds never intrude into the neighbouring regions — the earlier
window is clamped to end before the later region's unclamped leading window
and vice versa, rather than at a shared midpoint. -/
theorem split_context_window_clamping (hunk : Hunk) (ri : Nat)
    (hmulti : 2 ≤ (findRegions hunk.lines).length)
    (hri : ri < (findRegions hunk.lines).length) :
    ((splitHunk hunk).map (fun h2 => h2.lines)).getD ri []
        = sliceLines hunk.lines
            (subBounds hunk.lines.length (findRegions hunk.lines) ri).1
            (subBounds hunk.lines.length (findRegions hunk.lines) ri).2 ∧
      (subBounds hunk.lines.length (findRegions hunk.lines) ri).1
          ≤ ((findRegions hunk.lines).getD ri (0, 0)).1 ∧
      ((findRegions hunk.lines).getD ri (0, 0)).2
          ≤ (subBounds hunk.lines.length (findRegions hunk.lines) ri).2 ∧
      ((findRegions hunk.lines).getD ri (0, 0)).1
          - (subBounds hunk.lines.length (findRegions hunk.lines) ri).1 ≤ 3 ∧
      (subBounds hunk.lines.length (findRegions hunk.lines) ri).2
          - ((findRegions hunk.lines).getD ri (0, 0)).2 ≤ 3 ∧
      (∀ j, (subBounds hunk.lines.length (findRegions hunk.lines) ri).1 ≤ j →
        j < ((findRegions hunk.lines).getD ri (0, 0)).1 → ¬ changeAt hunk.lines j) ∧
      (∀ j, ((findRegions hunk.lines).getD ri (0, 0)).2 < j →
        j ≤ (subBounds hunk.lines.length (findRegions hunk.lines) ri).2 →
        ¬ changeAt hunk.lines j) ∧
      (0 < ri →
        ((findRegions hunk.lines).getD (ri - 1) (0, 0)).2
          < (subBounds hunk.lines.length (findRegions hunk.lines) ri).1) ∧
      (ri + 1 < (findRegions hunk.lines).length →
        (subBounds hunk.lines.length (findRegions hunk.lines) ri).2
          < ((findRegions hunk.lines).getD (ri + 1) (0, 0)).1) := by
  obtain ⟨hb1, hb2, hb3, hb4, hb5, hb6, hb7⟩ := subBounds_facts hunk.lines ri hri
  obtain ⟨hw1, hw2⟩ := findRegions_getD hunk.lines ri hri
  have hlines : ((splitHunk hunk).map (fun h2 => h2.lines)).getD ri []
      = sliceLines hunk.lines
          (subBounds hunk.lines.length (findRegions hunk.lines) ri).1
          (subBounds hunk.lines.length (findRegions hunk.lines) ri).2 := by
    rw [splitHunk_multi hunk (by omega)]
    rw [List.getD_eq_getElem _ _ (by simpa using hri)]
    simp only [List.getElem_map, List.getElem_range]
    rfl
  refine ⟨hlines, hb1, hb2, hb3, hb4, ?_, ?_, hb6, hb7⟩
  · intro j hj1 hj2 hch
    have hjlen : j < hunk.lines.length := by
      obtain ⟨l2, hl2, _⟩ := hch
      exact (List.getElem?_eq_some.mp hl2).1
    obtain ⟨r2, hr2, hc1, hc2⟩ := ((findRegions_spec hunk.lines).2.2 j hjlen).mp hch
    obtain ⟨m, hm, hmd⟩ := findRegions_mem_index hunk.lines r2 hr2
    rw [← hmd] at hc1 hc2
    rcases lt_trichotomy m ri with hlt | heq | hgt
    · have h0ri : 0 < ri := by omega
      have hprev := hb6 h0ri
      by_cases hm1 : m = ri - 1
      · subst hm1
        omega
      · have hp2 := findRegions_pairwise_getD hunk.lines m (ri - 1) (by omega) (by omega)
        obtain ⟨hv1, hv2⟩ := findRegions_getD hunk.lines (ri - 1) (by omega)
        omega
    · subst heq
      omega
    · have hri1 : ri + 1 < (findRegions hunk.lines).length := by omega
      have hadj := findRegions_pairwise_getD hunk.lines ri (ri + 1) hri1 (by omega)
      by_cases hm1 : m = ri + 1
      · subst hm1
        omega
      · have hp2 := findRegions_pairwise_getD hunk.lines (ri + 1) m (by omega) (by omega)
        obtain ⟨hv1, hv2⟩ := findRegions_getD hunk.lines (ri + 1) hri1
        omega
  · intro j hj1 hj2 hch
    have hjlen : j < hunk.lines.length := by
      obtain ⟨l2, hl2, _⟩ := hch
      exact (List.getElem?_eq_some.mp hl2).1
    obtain ⟨r2, hr2, hc1, hc2⟩ := ((findRegions_spec hunk.lines).2.2 j hjlen).mp hch
    obtain ⟨m, hm, hmd⟩ := findRegions_mem_index hunk.lines r2 hr2
    rw [← hmd] at hc1 hc2
    rcases lt_trichotomy m ri with hlt | heq | hgt
    · have hp2 := findRegions_pairwise_getD hunk.lines m ri hri hlt
      omega
    · subst heq
      omega
    · have hri1 : ri + 1 < (findRegions hunk.lines).length := by omega
      have hnext := hb7 hri1
      by_cases hm1 : m = ri + 1
      · subst hm1
        omega
      · have hp2 := findRegions_pairwise_getD hunk.lines (ri + 1) m (by omega) (by omega)
        obtain ⟨hv1, hv2⟩ := findRegions_getD hunk.lines (ri + 1) hri1
        omega

/-- Witness for C8: the two-region hunk with a four-line gap satisfies the
clamping facts at region 0. -/
theorem split_context_window_clamping_witness :
    ((splitHunk cexMidpointHunk).map (fun h2 => h2.lines)).getD 0 []
        = sliceLines cexMidpointHunk.lines
            (subBounds cexMidpointHunk.lines.length (findRegions cexMidpointHunk.lines) 0).1
            (subBounds cexMidpointHunk.lines.length (findRegions cexMidpointHunk.lines) 0).2 ∧
      (subBounds cexMidpointHunk.lines.length (findRegions cexMidpointHunk.lines) 0).1
          ≤ ((findRegions cexMidpointHunk.lines).getD 0 (0, 0)).1 ∧
      ((findRegions cexMidpointHunk.lines).getD 0 (0, 0)).2
          ≤ (subBounds cexMidpointHunk.lines.length (findRegions cexMidpointHunk.lines) 0).2 ∧
      ((findRegions cexMidpointHunk.lines).getD 0 (0, 0)).1
          - (subBounds cexMidpointHunk.lines.length (findRegions cexMidpointHunk.lines) 0).1
          ≤ 3 ∧
      (subBounds cexMidpointHunk.lines.length (findRegions cexMidpointHunk.lines) 0).2
          - ((findRegions cexMidpointHunk.lines).getD 0 (0, 0)).2 ≤ 3 ∧
      (∀ j, (subBounds cexMidpointHunk.lines.length (findRegions cexMidpointHunk.lines) 0).1 ≤ j →
        j < ((findRegions cexMidpointHunk.lines).getD 0 (0, 0)).1 →
        ¬ changeAt cexMidpointHunk.lines j) ∧
      (∀ j, ((findRegions cexMidpointHunk.lines).getD 0 (0, 0)).2 < j →
        j ≤ (subBounds cexMidpointHunk.lines.length (findRegions cexMidpointHunk.lines) 0).2 →
        ¬ changeAt cexMidpointHunk.lines j) ∧
      (0 < 0 →
        ((findRegions cexMidpointHunk.lines).getD (0 - 1) (0, 0)).2
          < (subBounds cexMidpointHunk.lines.length (findRegions cexMidpointHunk.lines) 0).1) ∧
      (0 + 1 < (findRegions cexMidpointHunk.lines).length →
        (subBounds cexMidpointHunk.lines.length (findRegions cexMidpointHunk.lines) 0).2
          < ((findRegions cexMidpointHunk.lines).getD (0 + 1) (0, 0)).1) :=
  split_context_window_clamping cexMidpointHunk 0 (by decide) (by decide)

/-- Counterexample for C8 as stated: the two regions of `cexMidpointHunk`
are separated by four Context lines, so clamping at the shared midpoint
would keep two Context lines on each side (windows covering all four
separating lines); the code instead keeps one on each side and leaves two
separating lines in neither window. -/
theorem split_midpoint_cex :
    findRegions cexMidpointHunk.lines = [(0, 0), (5, 5)] ∧
      subBounds cexMidpointHunk.lines.length (findRegions cexMidpointHunk.lines) 0 = (0, 1) ∧
      subBounds cexMidpointHunk.lines.length (findRegions cexMidpointHunk.lines) 1 = (4, 5) ∧
      ((splitHunk cexMidpointHunk).map (fun h2 => h2.lines.length)) = [2, 2] := by
  decide

/-- A failing header makes `parse_hunk` fail with the header's error. -/
theorem parse_hunk_of_fails (l : String) (rest : List String)
    (hf : hunkHeaderFails l = true) :
    parse_hunk l rest = .error (hunkHeaderErr l) := by
  unfold hunkHeaderFails at hf
  unfold hunkHeaderErr parse_hunk
  cases h : parse_hunk_header l with
  | ok v => rw [h] at hf; simp at hf
  | error e => rfl

/-- A passing header makes `parse_hunk` succeed, with the body's remaining
lines. -/
theorem parse_hunk_of_ok (l : String) (rest : List String)
    (hf : hunkHeaderFails l = false) :
    ∃ hk w, parse_hunk l rest
      = .ok (hk, (parseHunkBody rest hk.old_start hk.new_start).2, w) := by
  unfold hunkHeaderFails at hf
  unfold parse_hunk
  cases h : parse_hunk_header l with
  | ok v =>
    obtain ⟨os, ol, ns, nl, hd⟩ := v
    exact ⟨_, _, rfl⟩
  | error e => rw [h] at hf; simp at hf

/-- The hunk-body loop preserves the first-failing-header scans and consumes
only lines that are neither hunk headers nor file boundaries. -/
theorem parseHunkBody_keeps :
    ∀ (rest : List String) (o n : Nat),
      firstBadAll (parseHunkBody rest o n).2 = firstBadAll rest ∧
        firstBadSection (parseHunkBody rest o n).2 = firstBadSection rest ∧
        (parseHunkBody rest o n).2.length ≤ rest.length := by
  intro rest
  induction rest with
  | nil => intro o n; exact ⟨rfl, rfl, le_refl _⟩
  | cons l rest2 ih =>
    intro o n
    by_cases hb : (swStr l "@@ " || swStr l "diff --git ") = true
    · have hstep : parseHunkBody (l :: rest2) o n = ([], l :: rest2) := by
        simp only [parseHunkBody]
        rw [if_pos hb]
      rw [hstep]
      exact ⟨rfl, rfl, le_refl _⟩
    · have h1 : swStr l "@@ " = false := by
        rcases Bool.or_eq_false_iff.mp (eq_false_of_ne_true hb) with ⟨ha, _⟩ <;> exact ha
      have h2 : swStr l "diff --git " = false := by
        rcases Bool.or_eq_false_iff.mp (eq_false_of_ne_true hb) with ⟨_, ha⟩ <;> exact ha
      have hfa : firstBadAll (l :: rest2) = firstBadAll rest2 := by
        simp [firstBadAll, h1]
      have hfs : firstBadSection (l :: rest2) = firstBadSection rest2 := by
        simp [firstBadSection, h1, h2]
      have hcomb : ∀ o2 n2,
          firstBadAll (parseHunkBody rest2 o2 n2).2 = firstBadAll (l :: rest2) ∧
            firstBadSection (parseHunkBody rest2 o2 n2).2 = firstBadSection (l :: rest2) ∧
            (parseHunkBody rest2 o2 n2).2.length ≤ (l :: rest2).length := by
        intro o2 n2
        obtain ⟨i1, i2, i3⟩ := ih o2 n2
        refine ⟨i1.trans hfa.symm, i2.trans hfs.symm, ?_⟩
        simp only [List.length_cons]
        omega
      by_cases hbs : swStr l "\\ " = true
      · have hstep : parseHunkBody (l :: rest2) o n = parseHunkBody rest2 o n := by
          simp only [parseHunkBody]
          rw [if_neg hb, if_pos hbs]
        rw [hstep]
        exact hcomb o n
      · cases hsp : stripPfxStr "+" l with
        | some content =>
          have hstep : (parseHunkBody (l :: rest2) o n).2 = (parseHunkBody rest2 o (n + 1)).2 := by
            simp only [parseHunkBody]
            rw [if_neg hb, if_neg hbs, hsp]
          rw [hstep]
          exact hcomb o (n + 1)
        | none =>
          cases hsm : stripPfxStr "-" l with
          | some content =>
            have hstep : (parseHunkBody (l :: rest2) o n).2
                = (parseHunkBody rest2 (o + 1) n).2 := by
              simp only [parseHunkBody]
              rw [if_neg hb, if_neg hbs, hsp, hsm]
            rw [hstep]
            exact hcomb (o + 1) n
          | none =>
            cases hss : stripPfxStr " " l with
            | some content =>
              have hstep : (parseHunkBody (l :: rest2) o n).2
                  = (parseHunkBody rest2 (o + 1) (n + 1)).2 := by
                simp only [parseHunkBody]
                rw [if_neg hb, if_neg hbs, hsp, hsm, hss]
              rw [hstep]
              exact hcomb (o + 1) (n + 1)
            | none =>
              by_cases hemp : l = ""
              · have hstep : (parseHunkBody (l :: rest2) o n).2
                    = (parseHunkBody rest2 (o + 1) (n + 1)).2 := by
                  simp only [parseHunkBody]
                  rw [if_neg hb, if_neg hbs, hsp, hsm, hss, if_pos hemp]
                rw [hstep]
                exact hcomb (o + 1) (n + 1)
              · have hstep : parseHunkBody (l :: rest2) o n = ([], l :: rest2) := by
                  simp only [parseHunkBody]
                  rw [if_neg hb, if_neg hbs, hsp, hsm, hss, if_neg hemp]
                rw [hstep]
                exact ⟨rfl, rfl, le_refl _⟩

/-- The extended-header loop preserves the first-failing-header scans. -/
theorem parseExtHeaders_keeps :
    ∀ (rest : List String) (st : DeltaStatus) (bin : Bool) (p : String),
      firstBadAll (parseExtHeaders rest st bin p).2.2.2 = firstBadAll rest ∧
        firstBadSection (parseExtHeaders rest st bin p).2.2.2 = firstBadSection rest ∧
        (parseExtHeaders rest st bin p).2.2.2.length ≤ rest.length := by
  intro rest
  induction rest with
  | nil => intro st bin p; exact ⟨rfl, rfl, le_refl _⟩
  | cons l rest2 ih =>
    intro st bin p
    by_cases hb : (swStr l "diff --git " || swStr l "@@ ") = true
    · have hstep : parseExtHeaders (l :: rest2) st bin p = (st, bin, p, l :: rest2) := by
        simp only [parseExtHeaders]
        rw [if_pos hb]
      rw [hstep]
      exact ⟨rfl, rfl, le_refl _⟩
    · have h1 : swStr l "diff --git " = false := by
        rcases Bool.or_eq_false_iff.mp (eq_false_of_ne_true hb) with ⟨ha, _⟩ <;> exact ha
      have h2 : swStr l "@@ " = false := by
        rcases Bool.or_eq_false_iff.mp (eq_false_of_ne_true hb) with ⟨_, ha⟩ <;> exact ha
      have hfa : firstBadAll (l :: rest2) = firstBadAll rest2 := by
        simp [firstBadAll, h2]
      have hfs : firstBadSection (l :: rest2) = firstBadSection rest2 := by
        simp [firstBadSection, h1, h2]
      have hcomb : ∀ st2 bin2 p2,
          firstBadAll (parseExtHeaders rest2 st2 bin2 p2).2.2.2 = firstBadAll (l :: rest2) ∧
            firstBadSection (parseExtHeaders rest2 st2 bin2 p2).2.2.2
              = firstBadSection (l :: rest2) ∧
            (parseExtHeaders rest2 st2 bin2 p2).2.2.2.length ≤ (l :: rest2).length := by
        intro st2 bin2 p2
        obtain ⟨i1, i2, i3⟩ := ih st2 bin2 p2
        refine ⟨i1.trans hfa.symm, i2.trans hfs.symm, ?_⟩
        simp only [List.length_cons]
        omega
      have hstep : ∃ st2 bin2 p2,
          parseExtHeaders (l :: rest2) st bin p = parseExtHeaders rest2 st2 bin2 p2 := by
        simp only [parseExtHeaders]
        rw [if_neg hb]
        repeat first
        | exact ⟨_, _, _, rfl⟩
        | split
      obtain ⟨st2, bin2, p2, hstep⟩ := hstep
      rw [hstep]
      exact hcomb st2 bin2 p2

/-- A failing header found before the next boundary is the global first
failure. -/
theorem firstBadSection_some (S : List String) :
    ∀ h, firstBadSection S = some h → firstBadAll S = some h := by
  induction S with
  | nil => intro h hh; exact absurd hh (by simp [firstBadSection])
  | cons l rest ih =>
    intro h hh
    simp only [firstBadSection] at hh
    simp only [firstBadAll]
    by_cases hg : swStr l "diff --git " = true
    · rw [if_pos hg] at hh
      simp at hh
    · rw [if_neg hg] at hh
      by_cases hb : (swStr l "@@ " && hunkHeaderFails l) = true
      · rw [if_pos hb] at hh
        rw [if_pos hb]
        exact hh
      · rw [if_neg hb] at hh
        rw [if_neg hb]
        exact ih h hh

/-- A list with a nonempty prefix starts with the prefix's head. -/
theorem isPfx_head (a : Char) (as bs : List Char) (h : isPfx (a :: as) bs = true) :
    ∃ cs, bs = a :: cs := by
  cases bs with
  | nil => simp [isPfx] at h
  | cons b cs =>
    simp [isPfx] at h
    exact ⟨cs, by rw [h.1]⟩

/-- A line starting with `"diff --git "` does not start with `"@@ "`. -/
theorem swStr_diff_not_hdr (l : String) (h : swStr l "diff --git " = true) :
    swStr l "@@ " = false := by
  unfold swStr at h ⊢
  obtain ⟨cs, hcs⟩ := isPfx_head 'd' "iff --git ".data l.data h
  rw [hcs]
  show (decide (('@' : Char) = 'd') && isPfx ['@', ' '] cs) = false
  simp

/-- The hunk loop reports exactly the first failing hunk header of its
section; on success, nothing before the stopping point was a failing header,
and the loop stops at the end of input or at a `"diff --git "` boundary. -/
theorem parseHunksGo_spec :
    ∀ (fuel : Nat) (S : List String), S.length < fuel →
      (∀ e, parseHunksGo fuel S = .error e →
          ∃ h, firstBadSection S = some h ∧ e = hunkHeaderErr h) ∧
      (∀ hs rem, parseHunksGo fuel S = .ok (hs, rem) →
          firstBadSection S = none ∧ firstBadAll S = firstBadAll rem ∧
            rem.length ≤ S.length ∧
            (rem = [] ∨ ∃ l r2, rem = l :: r2 ∧ swStr l "diff --git " = true)) := by
  intro fuel
  induction fuel with
  | zero => intro S hS; omega
  | succ fuel ih =>
    intro S hS
    cases S with
    | nil =>
      constructor
      · intro e he
        exact absurd he (by simp [parseHunksGo])
      · intro hs rem hok
        simp only [parseHunksGo] at hok
        simp at hok
        obtain ⟨h1, h2⟩ := hok
        subst h2
        exact ⟨rfl, rfl, le_refl _, Or.inl rfl⟩
    | cons l rest =>
      have hrl : rest.length < fuel := by
        simp only [List.length_cons] at hS
        omega
      by_cases hg : swStr l "diff --git " = true
      · have hstep : parseHunksGo (fuel + 1) (l :: rest) = .ok ([], l :: rest) := by
          simp only [parseHunksGo]
          rw [if_pos hg]
        have hsec : firstBadSection (l :: rest) = none := by
          simp [firstBadSection, hg]
        constructor
        · intro e he
          rw [hstep] at he
          exact absurd he (by simp)
        · intro hs rem hok2
          rw [hstep] at hok2
          simp at hok2
          obtain ⟨h1, h2⟩ := hok2
          subst h2
          exact ⟨hsec, rfl, le_refl _, Or.inr ⟨l, rest, rfl, hg⟩⟩
      · by_cases hat : swStr l "@@ " = true
        · by_cases hf : hunkHeaderFails l = true
          · have hstep : parseHunksGo (fuel + 1) (l :: rest) = .error (hunkHeaderErr l) := by
              simp only [parseHunksGo]
              rw [if_neg hg, if_pos hat, parse_hunk_of_fails l rest hf]
            have hsec : firstBadSection (l :: rest) = some l := by
              simp [firstBadSection, hg, hat, hf]
            constructor
            · intro e he
              rw [hstep] at he
              simp at he
              exact ⟨l, hsec, he.symm⟩
            · intro hs rem hok2
              rw [hstep] at hok2
              exact absurd hok2 (by simp)
          · have hf2 : hunkHeaderFails l = false := eq_false_of_ne_true hf
            obtain ⟨hk, w, hok1⟩ := parse_hunk_of_ok l rest hf2
            obtain ⟨ba, bs, bl⟩ := parseHunkBody_keeps rest hk.old_start hk.new_start
            have hrl2 : (parseHunkBody rest hk.old_start hk.new_start).2.length < fuel := by
              omega
            have hsecstep : firstBadSection (l :: rest) = firstBadSection rest := by
              simp [firstBadSection, hg, hf2]
            have hallstep : firstBadAll (l :: rest) = firstBadAll rest := by
              simp [firstBadAll, hf2]
            have hstep : parseHunksGo (fuel + 1) (l :: rest)
                = (match parseHunksGo fuel (parseHunkBody rest hk.old_start hk.new_start).2 with
                   | .error e => .error e
                   | .ok (hs, rem2) => .ok (hk :: hs, rem2)) := by
              simp only [parseHunksGo]
              rw [if_neg hg, if_pos hat, hok1]
            obtain ⟨ihe, iho⟩ := ih (parseHunkBody rest hk.old_start hk.new_start).2 hrl2
            cases hres : parseHunksGo fuel (parseHunkBody rest hk.old_start hk.new_start).2 with
            | error e2 =>
              have hstep2 : parseHunksGo (fuel + 1) (l :: rest) = .error e2 := by
                rw [hstep, hres]
              constructor
              · intro e he
                rw [hstep2] at he
                simp at he
                obtain ⟨h, hh1, hh2⟩ := ihe e2 hres
                refine ⟨h, ?_, ?_⟩
                · rw [hsecstep, ← bs]
                  exact hh1
                · rw [← he]
                  exact hh2
              · intro hs rem hok2
                rw [hstep2] at hok2
                exact absurd hok2 (by simp)
            | ok pr =>
              obtain ⟨hs2, rem2⟩ := pr
              have hstep2 : parseHunksGo (fuel + 1) (l :: rest) = .ok (hk :: hs2, rem2) := by
                rw [hstep, hres]
              obtain ⟨j1, j2, j3, j4⟩ := iho hs2 rem2 hres
              constructor
              · intro e he
                rw [hstep2] at he
                exact absurd he (by simp)
              · intro hs rem hok2
                rw [hstep2] at hok2
                simp at hok2
                obtain ⟨hhs, hrem⟩ := hok2
                subst hrem
                refine ⟨?_, ?_, ?_, j4⟩
                · rw [hsecstep, ← bs]
                  exact j1
                · rw [hallstep, ← ba]
                  exact j2
                · simp only [List.length_cons]
                  omega
        · have hstep : parseHunksGo (fuel + 1) (l :: rest) = parseHunksGo fuel rest := by
            simp only [parseHunksGo]
            rw [if_neg hg, if_neg hat]
          have hsecstep : firstBadSection (l :: rest) = firstBadSection rest := by
            simp [firstBadSection, hg, hat]
          have hallstep : firstBadAll (l :: rest) = firstBadAll rest := by
            simp [firstBadAll, hat]
          obtain ⟨ihe, iho⟩ := ih rest hrl
          constructor
          · intro e he
            rw [hstep] at he
            obtain ⟨h, hh1, hh2⟩ := ihe e he
            refine ⟨h, ?_, hh2⟩
            rw [hsecstep]
            exact hh1
          · intro hs rem hok2
            rw [hstep] at hok2
            obtain ⟨j1, j2, j3, j4⟩ := iho hs rem hok2
            refine ⟨?_, ?_, ?_, j4⟩
            · rw [hsecstep]
              exact j1
            · rw [hallstep]
              exact j2
            · simp only [List.length_cons]
              omega

/-- A file section fails exactly on the first failing hunk header of its
section; on success the remaining lines preserve the global header scan and
stop at the end of input or at a `"diff --git "` boundary. -/
theorem parse_file_diff_spec (hdrRest : String) (rest : List String) :
    (∀ e, parse_file_diff hdrRest rest = .error e →
        ∃ h, firstBadSection rest = some h ∧ e = hunkHeaderErr h) ∧
    (∀ fd rem, parse_file_diff hdrRest rest = .ok (fd, rem) →
        firstBadSection rest = none ∧ firstBadAll rest = firstBadAll rem ∧
          rem.length ≤ rest.length ∧
          (rem = [] ∨ ∃ l r2, rem = l :: r2 ∧ swStr l "diff --git " = true)) := by
  obtain ⟨ka, ks, kl⟩ :=
    parseExtHeaders_keeps rest .Modified false (parse_git_header_path hdrRest)
  set rest2 :=
    (parseExtHeaders rest .Modified false (parse_git_header_path hdrRest)).2.2.2 with hrest2
  obtain ⟨herr, hok⟩ := parseHunksGo_spec (rest2.length + 1) rest2 (by omega)
  constructor
  · intro e he
    simp only [parse_file_diff] at he
    rw [← hrest2] at he
    cases hres : parseHunksGo (rest2.length + 1) rest2 with
    | error e2 =>
      rw [hres] at he
      simp at he
      obtain ⟨h, hh1, hh2⟩ := herr e2 hres
      refine ⟨h, ?_, ?_⟩
      · rw [← ks]
        exact hh1
      · rw [← he]
        exact hh2
    | ok pr =>
      obtain ⟨hunks, rem2⟩ := pr
      rw [hres] at he
      simp at he
  · intro fd rem hfd
    simp only [parse_file_diff] at hfd
    rw [← hrest2] at hfd
    cases hres : parseHunksGo (rest2.length + 1) rest2 with
    | error e2 =>
      rw [hres] at hfd
      simp at hfd
    | ok pr =>
      obtain ⟨hunks, rem2⟩ := pr
      rw [hres] at hfd
      simp at hfd
      obtain ⟨hfd1, hfd2⟩ := hfd
      subst hfd2
      obtain ⟨j1, j2, j3, j4⟩ := hok hunks rem2 hres
      refine ⟨?_, ?_, ?_, j4⟩
      · rw [← ks]
        exact j1
      · rw [← ka]
        exact j2
      · omega

/-- The top-level loop fails exactly on the first failing hunk header after
the first `"diff --git "` line: an error names that header, and success means
there is no such header at all. -/
theorem parseFilesGo_spec :
    ∀ (fuel : Nat) (S : List String), S.length < fuel →
      (∀ e, parseFilesGo fuel S = .error e →
          ∃ h, firstBadGlobal S = some h ∧ e = hunkHeaderErr h) ∧
      (∀ fds, parseFilesGo fuel S = .ok fds → firstBadGlobal S = none) := by
  intro fuel
  induction fuel with
  | zero => intro S hS; omega
  | succ fuel ih =>
    intro S hS
    cases S with
    | nil =>
      refine ⟨?_, ?_⟩
      · intro e he
        exact absurd he (by simp [parseFilesGo])
      · intro fds _
        rfl
    | cons l rest =>
      have hrl : rest.length < fuel := by
        simp only [List.length_cons] at hS
        omega
      by_cases hg : swStr l "diff --git " = true
      · have hsp : stripPfxStr "diff --git " l
            = some (String.mk (l.data.drop "diff --git ".data.length)) := by
          unfold stripPfxStr
          rw [if_pos hg]
        have hglob : firstBadGlobal (l :: rest) = firstBadAll rest := by
          simp [firstBadGlobal, hg]
        obtain ⟨pfe, pfo⟩ :=
          parse_file_diff_spec (String.mk (l.data.drop "diff --git ".data.length)) rest
        cases hres : parse_file_diff (String.mk (l.data.drop "diff --git ".data.length)) rest with
        | error e2 =>
          have hstep : parseFilesGo (fuel + 1) (l :: rest) = .error e2 := by
            simp only [parseFilesGo, hsp]
            rw [hres]
          obtain ⟨h, hh1, hh2⟩ := pfe e2 hres
          have hfa : firstBadAll rest = some h := firstBadSection_some rest h hh1
          refine ⟨?_, ?_⟩
          · intro e he
            rw [hstep] at he
            simp at he
            refine ⟨h, ?_, ?_⟩
            · rw [hglob]
              exact hfa
            · rw [← he]
              exact hh2
          · intro fds hok
            rw [hstep] at hok
            exact absurd hok (by simp)
        | ok pr =>
          obtain ⟨fd, rem⟩ := pr
          obtain ⟨j1, j2, j3, j4⟩ := pfo fd rem hres
          have hstep : parseFilesGo (fuel + 1) (l :: rest)
              = (match parseFilesGo fuel rem with
                 | .error e => .error e
                 | .ok fds => .ok (fd :: fds)) := by
            simp only [parseFilesGo, hsp]
            rw [hres]
          have hremglob : firstBadGlobal rem = firstBadAll rem := by
            rcases j4 with rfl | ⟨l2, r2, rfl, hg2⟩
            · rfl
            · have hat2 : swStr l2 "@@ " = false := swStr_diff_not_hdr l2 hg2
              have e1 : firstBadGlobal (l2 :: r2) = firstBadAll r2 := by
                simp [firstBadGlobal, hg2]
              have e2 : firstBadAll (l2 :: r2) = firstBadAll r2 := by
                simp [firstBadAll, hat2]
              rw [e1, e2]
          have hrll : rem.length < fuel := by omega
          obtain ⟨ihe, iho⟩ := ih rem hrll
          refine ⟨?_, ?_⟩
          · intro e he
            rw [hstep] at he
            cases hres2 : parseFilesGo fuel rem with
            | error e3 =>
              rw [hres2] at he
              simp at he
              obtain ⟨h, hh1, hh2⟩ := ihe e3 hres2
              refine ⟨h, ?_, ?_⟩
              · rw [hglob, j2, ← hremglob]
                exact hh1
              · rw [← he]
                exact hh2
            | ok fds =>
              rw [hres2] at he
              exact absurd he (by simp)
          · intro fds hok
            rw [hstep] at hok
            cases hres2 : parseFilesGo fuel rem with
            | error e3 =>
              rw [hres2] at hok
              exact absurd hok (by simp)
            | ok fds2 =>
              rw [hglob, j2, ← hremglob]
              exact iho fds2 hres2
      · have hsp : stripPfxStr "diff --git " l = none := by
          unfold stripPfxStr
          rw [if_neg hg]
        have hstep : parseFilesGo (fuel + 1) (l :: rest) = parseFilesGo fuel rest := by
          simp only [parseFilesGo, hsp]
        have hglob : firstBadGlobal (l :: rest) = firstBadGlobal rest := by
          simp [firstBadGlobal, hg]
        obtain ⟨ihe, iho⟩ := ih rest hrl
        refine ⟨?_, ?_⟩
        · intro e he
          rw [hstep] at he
          obtain ⟨h, hh1, hh2⟩ := ihe e he
          refine ⟨h, ?_, hh2⟩
          rw [hglob]
          exact hh1
        · intro fds hok
          rw [hstep] at hok
          rw [hglob]
          exact iho fds hok

/-- Every character of a piece produced by the newline splitter comes from
the input or the accumulator. -/
theorem splitNlGo_chars :
    ∀ (cs cur piece : List Char), piece ∈ splitNlGo cs cur → ∀ c ∈ piece, c ∈ cs ∨ c ∈ cur := by
  intro cs
  induction cs with
  | nil =>
    intro cur piece hp c hc
    simp [splitNlGo] at hp
    subst hp
    simp at hc
    exact Or.inr hc
  | cons a rest ih =>
    intro cur piece hp c hc
    simp only [splitNlGo] at hp
    by_cases ha : a = Char.ofNat 10
    · rw [if_pos ha] at hp
      rcases List.mem_cons.mp hp with h1 | h2
      · subst h1
        simp at hc
        exact Or.inr hc
      · rcases ih [] piece h2 c hc with h3 | h3
        · exact Or.inl (List.mem_cons_of_mem _ h3)
        · simp at h3
    · rw [if_neg ha] at hp
      rcases ih (a :: cur) piece hp c hc with h3 | h3
      · exact Or.inl (List.mem_cons_of_mem _ h3)
      · rcases List.mem_cons.mp h3 with h4 | h4
        · subst h4
          exact Or.inl (List.mem_cons_self _ _)
        · exact Or.inr h4

/-- Every character of a line produced by `rustLines` occurs in the input. -/
theorem rustLines_chars (s l : String) (hl : l ∈ rustLines s) : ∀ c ∈ l.data, c ∈ s.data := by
  intro c hc
  simp only [rustLines] at hl
  by_cases h0 : s.data = []
  · rw [if_pos h0] at hl
    simp at hl
  · rw [if_neg h0] at hl
    simp only [List.mem_map] at hl
    obtain ⟨p1, hp1, hmk⟩ := hl
    obtain ⟨p0, hp0, hf⟩ := hp1
    have hdata : l.data = p1 := (congrArg String.data hmk).symm
    rw [hdata] at hc
    have hc0 : c ∈ p0 := by
      rw [← hf] at hc
      by_cases hr : p0.getLast? = some (Char.ofNat 13)
      · rw [if_pos hr] at hc
        exact (List.dropLast_sublist p0).subset hc
      · rw [if_neg hr] at hc
        exact hc
    have hp0s : p0 ∈ splitNlGo s.data [] := by
      by_cases he : s.data.getLast? = some (Char.ofNat 10)
      · rw [if_pos he] at hp0
        exact (List.dropLast_sublist _).subset hp0
      · rw [if_neg he] at hp0
        exact hp0
    rcases splitNlGo_chars s.data [] p0 hp0s c hc0 with h | h
    · exact h
    · simp at h

/-- If trimming leaves nothing, every character of the string is
whitespace. -/
theorem trimStr_empty_ws (s : String) (h : trimStr s = "") :
    ∀ c ∈ s.data, c.isWhitespace = true := by
  intro c hc
  unfold trimStr at h
  have h2 : ((s.data.dropWhile Char.isWhitespace).reverse.dropWhile
      Char.isWhitespace).reverse = [] := congrArg String.data h
  rw [List.reverse_eq_nil_iff, List.dropWhile_eq_nil_iff] at h2
  have h3 : ∀ x ∈ s.data.dropWhile Char.isWhitespace, x.isWhitespace = true := by
    intro x hx
    exact h2 x (List.mem_reverse.mpr hx)
  rcases List.mem_append.mp
      (show c ∈ s.data.takeWhile Char.isWhitespace ++ s.data.dropWhile Char.isWhitespace by
        rw [List.takeWhile_append_dropWhile]
        exact hc) with h4 | h4
  · exact List.mem_takeWhile_imp h4
  · exact h3 c h4

/-- Without a `"diff --git "` line there is no reachable failing header. -/
theorem firstBadGlobal_none_of_no_git : ∀ (L : List String),
    (∀ l ∈ L, swStr l "diff --git " = false) → firstBadGlobal L = none := by
  intro L
  induction L with
  | nil => intro _; rfl
  | cons l rest ih =>
    intro h
    have h1 := h l (List.mem_cons_self _ _)
    simp only [firstBadGlobal]
    rw [if_neg (by simp [h1])]
    exact ih (fun l2 hl2 => h l2 (List.mem_cons_of_mem _ hl2))

/-- A whitespace-only input has no reachable failing header: none of its
lines can start with `"diff --git "`. -/
theorem firstBadGlobal_none_ws (input : String) (ht : trimStr input = "") :
    firstBadGlobal (rustLines input) = none := by
  apply firstBadGlobal_none_of_no_git
  intro l hl
  cases hq : swStr l "diff --git " with
  | false => rfl
  | true =>
    obtain ⟨cs, hcs⟩ := isPfx_head 'd' "iff --git ".data l.data hq
    have hd : 'd' ∈ l.data := by
      rw [hcs]
      exact List.mem_cons_self _ _
    have hw := trimStr_empty_ws input ht 'd' (rustLines_chars input l hl 'd' hd)
    exact absurd hw (by decide)

/-- **C5.** Text ingestion returns an error if and only if it reaches a hunk
header line — a line starting with `"@@ "` after the first `"diff --git "`
line — whose range syntax cannot be tokenized: an error implies such a header
exists and carries that first failing header's message, a first failing
header forces exactly that error, and with no failing header parsing
succeeds; empty or whitespace-only input yields an empty file list, not an
error. -/
theorem parse_unified_diff_error_characterization (input : String) :
    (trimStr input = "" → parse_unified_diff input = .ok []) ∧
    (∀ e, parse_unified_diff input = .error e →
        ∃ h, firstBadGlobal (rustLines input) = some h ∧ e = hunkHeaderErr h) ∧
    (∀ h, firstBadGlobal (rustLines input) = some h →
        parse_unified_diff input = .error (hunkHeaderErr h)) ∧
    (firstBadGlobal (rustLines input) = none → ∃ fds, parse_unified_diff input = .ok fds) := by
  refine ⟨?_, ?_, ?_, ?_⟩
  · intro ht
    unfold parse_unified_diff
    rw [if_pos ht]
  · intro e he
    unfold parse_unified_diff at he
    by_cases ht : trimStr input = ""
    · rw [if_pos ht] at he
      exact absurd he (by simp)
    · rw [if_neg ht] at he
      obtain ⟨pe, _⟩ :=
        parseFilesGo_spec ((rustLines input).length + 1) (rustLines input) (by omega)
      exact pe e he
  · intro h hsome
    by_cases ht : trimStr input = ""
    · rw [firstBadGlobal_none_ws input ht] at hsome
      exact absurd hsome (by simp)
    · obtain ⟨pe, po⟩ :=
        parseFilesGo_spec ((rustLines input).length + 1) (rustLines input) (by omega)
      cases hres : parseFilesGo ((rustLines input).length + 1) (rustLines input) with
      | error e =>
        obtain ⟨h2, hh1, hh2⟩ := pe e hres
        rw [hsome] at hh1
        have hh : h2 = h := by
          injection hh1 with hh
          exact hh.symm
        unfold parse_unified_diff
        rw [if_neg ht, hres, hh2, hh]
      | ok fds =>
        have := po fds hres
        rw [hsome] at this
        exact absurd this (by simp)
  · intro hnone
    by_cases ht : trimStr input = ""
    · exact ⟨[], by unfold parse_unified_diff; rw [if_pos ht]⟩
    · obtain ⟨pe, _⟩ :=
        parseFilesGo_spec ((rustLines input).length + 1) (rustLines input) (by omega)
      cases hres : parseFilesGo ((rustLines input).length + 1) (rustLines input) with
      | error e =>
        obtain ⟨h, hh1, _⟩ := pe e hres
        rw [hnone] at hh1
        exact absurd hh1 (by simp)
      | ok fds =>
        refine ⟨fds, ?_⟩
        unfold parse_unified_diff
        rw [if_neg ht]
        exact hres

/-- Witness for C5: the malformed header of `cexBadHeaderDiff` is found by the
scan and produces its failure message (both directions of the iff exercised);
empty input parses to an empty list; the well-formed `cexMismatchDiff` has no
failing header and parses. -/
theorem parse_unified_diff_error_characterization_witness :
    (∃ h, firstBadGlobal (rustLines cexBadHeaderDiff) = some h ∧
        "invalid digit found in string" = hunkHeaderErr h) ∧
      parse_unified_diff cexBadHeaderDiff = .error (hunkHeaderErr "@@ -BAD +STUFF @@") ∧
      parse_unified_diff "" = .ok [] ∧
      (∃ fds, parse_unified_diff cexMismatchDiff = .ok fds) :=
  ⟨(parse_unified_diff_error_characterization cexBadHeaderDiff).2.1
      "invalid digit found in string" (by decide),
    (parse_unified_diff_error_characterization cexBadHeaderDiff).2.2.1
      "@@ -BAD +STUFF @@" (by decide),
    (parse_unified_diff_error_characterization "").1 (by decide),
    (parse_unified_diff_error_characterization cexMismatchDiff).2.2.2 (by decide)⟩

/-- Counterexample for C5 as stated: the error for the unparseable header
`@@ -BAD +STUFF @@` is the bare integer-parse message, which does not contain
the failing header (or any part of it), so the error does not identify the
header; and the numeric but `u32`-overflowing start `99999999999` also fails,
refuting the error condition "non-numeric start or count". -/
theorem parse_error_message_cex :
    parse_unified_diff cexBadHeaderDiff = .error "invalid digit found in string" ∧
      strContains "invalid digit found in string" "@@ -BAD +STUFF @@" = false ∧
      strContains "invalid digit found in string" "BAD" = false ∧
      parse_unified_diff cexOverflowDiff = .error "number too large to fit in target type" := by
  decide


end Stagent
